import Mathlib

/-!
Verification of the structural diff engine of `foundry_character_compare`
(`src/scripts/foundry_character_compare.js`, method `calculateDifferences`,
lines 96-165).

The repository code is a thin shell around one piece of logic: a routine
that compares two nested character records key by key and returns an
ordered list of path-level differences.  This file embeds that routine.

Embedding notes.

* JavaScript values are modelled by `Value`: primitives, `null`, explicit
  `undefined`, arrays (compared wholesale, never recursed into), and
  objects as association lists of string keys.  A `Rec` is the field list
  of an object.  JavaScript objects cannot repeat a key; that fact is the
  well-formedness predicate `wfKeysFields`.
* The host utilities called by the source (`foundry.utils.diffObject`,
  `getProperty`, `deepClone`) and the collation used by
  `localeCompare` are host code that is not part of this repository, so
  they are modelled from the spec (section 4.1): `diffObject` is the
  recursive walk collecting every differing leaf KeyPath of the right
  record, `getProperty` is dot-path lookup (the source ships its own
  simplified `_getProperty` with the same meaning, lines 175-177),
  `deepClone` is the identity on immutable values, and the sort
  comparator is byte/lexicographic string order.  A KeyPath is carried as
  its list of segments; `joinPath` produces the dot-joined string form
  that the source stores in the `key` field and uses for deduplication
  and sorting.
* `undefined` is a real value (`vUndef`) but, exactly as in JavaScript,
  `getProperty` cannot distinguish a key explicitly set to `undefined`
  from an absent key: `stripUndef` performs that flattening.
-/

namespace FoundryCompare

/-- A JavaScript value as stored in an actor record: `undefined`, `null`,
booleans, numbers, strings, arrays (treated as scalar leaves by the diff)
and nested objects given by their field list. -/
inductive Value where
  | vUndef : Value
  | vNull : Value
  | vBool : Bool → Value
  | vNum : Int → Value
  | vStr : String → Value
  | vArr : List Value → Value
  | vObj : List (String × Value) → Value

/-- An object's field list: the Record of the spec (section 3). -/
abbrev Rec := List (String × Value)

mutual

/-- Structural equality of JavaScript values (the equality used by the
host diff utility on leaves). -/
def Value.beq : Value → Value → Bool
  | .vUndef, .vUndef => true
  | .vNull, .vNull => true
  | .vBool a, .vBool b => a == b
  | .vNum a, .vNum b => a == b
  | .vStr a, .vStr b => a == b
  | .vArr a, .vArr b => Value.beqList a b
  | .vObj a, .vObj b => Value.beqFields a b
  | _, _ => false

/-- Elementwise equality of value lists. -/
def Value.beqList : List Value → List Value → Bool
  | [], [] => true
  | a :: as, b :: bs => Value.beq a b && Value.beqList as bs
  | _, _ => false

/-- Elementwise equality of field lists. -/
def Value.beqFields : List (String × Value) → List (String × Value) → Bool
  | [], [] => true
  | (k₁, v₁) :: as, (k₂, v₂) :: bs => k₁ == k₂ && Value.beq v₁ v₂ && Value.beqFields as bs
  | _, _ => false

end

mutual

theorem Value.beq_iff : ∀ a b : Value, Value.beq a b = true ↔ a = b
  | .vUndef, b => by cases b <;> simp [Value.beq]
  | .vNull, b => by cases b <;> simp [Value.beq]
  | .vBool a, b => by cases b <;> simp [Value.beq]
  | .vNum a, b => by cases b <;> simp [Value.beq]
  | .vStr a, b => by cases b <;> simp [Value.beq]
  | .vArr a, b => by
      cases b <;> simp [Value.beq]
      exact Value.beqList_iff a _
  | .vObj a, b => by
      cases b <;> simp [Value.beq]
      exact Value.beqFields_iff a _

theorem Value.beqList_iff : ∀ as bs : List Value, Value.beqList as bs = true ↔ as = bs
  | [], bs => by cases bs <;> simp [Value.beqList]
  | a :: as, bs => by
      cases bs with
      | nil => simp [Value.beqList]
      | cons b bs =>
          simp [Value.beqList, Bool.and_eq_true, Value.beq_iff a b, Value.beqList_iff as bs]

theorem Value.beqFields_iff : ∀ as bs : List (String × Value), Value.beqFields as bs = true ↔ as = bs
  | [], bs => by cases bs <;> simp [Value.beqFields]
  | (k₁, v₁) :: as, bs => by
      cases bs with
      | nil => simp [Value.beqFields]
      | cons b bs =>
          obtain ⟨k₂, v₂⟩ := b
          simp [Value.beqFields, Bool.and_eq_true, Value.beq_iff v₁ v₂, Value.beqFields_iff as bs]

end

instance : DecidableEq Value := fun a b => decidable_of_iff _ (Value.beq_iff a b)

/-- First binding of key `k` in a field list (JavaScript property read). -/
def lookAssoc (l : Rec) (k : String) : Option Value :=
  match l with
  | [] => none
  | (k₂, v) :: rest => if k₂ = k then some v else lookAssoc rest k

/-- JavaScript cannot tell a key explicitly set to `undefined` from an
absent key: both read back as `undefined`.  `stripUndef` applies that
flattening to a lookup result. -/
def stripUndef : Option Value → Option Value
  | some .vUndef => none
  | o => o

/-- The value a leaf presents to the diff: `undefined` behaves as absent. -/
def flatVal (v : Value) : Option Value := stripUndef (some v)

/-- Walk a value along a list of path segments, stepping only through
objects; any miss yields `none` (JavaScript `undefined`). -/
def getPropV : Value → List String → Option Value
  | v, [] => some v
  | .vObj fields, k :: rest =>
      match lookAssoc fields k with
      | some v => getPropV v rest
      | none => none
  | _, _ :: _ => none

/-- Modelled from the spec: the host global `getProperty(object, path)`
(the source also ships its own equivalent `_getProperty`, source lines
175-177) reads the value at a dot-notation KeyPath, `undefined` when the
path misses or ends at an explicit `undefined`.  The KeyPath is carried
as its segment list. -/
def getProperty (r : Rec) (p : List String) : Option Value :=
  stripUndef (getPropV (Value.vObj r) p)

/-- Dot-joined string form of a KeyPath, as stored in `key` fields
(spec section 3: a KeyPath is a dot-delimited sequence of segments). -/
def joinPath : List String → String
  | [] => ""
  | [s] => s
  | s :: rest => s ++ "." ++ joinPath rest

mutual

/-- Modelled from the spec (section 4.1, step 1): diff one right-hand
value against the left-hand lookup result at the same location.  When
both sides are objects the walk recurses; when only the right side is an
object and the left key is absent the walk recurses against an empty
object so that every leaf surfaces; a type change is a single leaf at
that path (spec section 4.1, edge cases); otherwise the leaf is reported
exactly when the two sides differ, an explicit `undefined` counting as
absent.  Paths are relative; `[]` is the location itself. -/
def diffV : Option Value → Value → List (List String × Value)
  | some (.vObj lo), .vObj ro => diffFields lo ro
  | none, .vObj ro => diffFields [] ro
  | lv, v => if lv = flatVal v then [] else [([], v)]

/-- Modelled from the spec (section 4.1, step 1): walk every field of the
right record against the left record, prefixing the field's key onto the
recursively collected differing leaf KeyPaths. -/
def diffFields : Rec → Rec → List (List String × Value)
  | _, [] => []
  | l, (k, v) :: rest =>
      (diffV (stripUndef (lookAssoc l k)) v).map (fun pw => (k :: pw.1, pw.2))
        ++ diffFields l rest

end

/-- Modelled from the spec: `foundry.utils.diffObject(a, b)` as the source
comment (lines 108-111) and spec section 4.1 describe it — the collection
of every leaf KeyPath present in `b` whose value differs from, or is
absent in, `a`, each carrying `b`'s value there. -/
def diffObject (a b : Rec) : List (List String × Value) := diffFields a b

/-- Status tag of one reported difference, source lines 125/133/155. -/
inductive Status where
  | changed : Status
  | added : Status
  | removed : Status
deriving DecidableEq

/-- One difference record as pushed by the source: the dot-joined path in
`key`, the classification, and the two values (`none` is JavaScript
`undefined`). -/
structure DiffEntry where
  key : String
  status : Status
  value1 : Option Value
  value2 : Option Value
deriving DecidableEq

/-- First pass of the source loop over `diff1to2` (lines 116-138): if the
path resolves in `data1` it is a change carrying both values, otherwise
an addition carrying only the new value. -/
def entryFor (data1 data2 : Rec) (p : List String) : DiffEntry :=
  match getProperty data1 p with
  | some v1 => ⟨joinPath p, Status.changed, some v1, getProperty data2 p⟩
  | none => ⟨joinPath p, Status.added, none, getProperty data2 p⟩

/-- Second pass of the source loop over `diff2to1` (lines 142-161): skip
any path whose key string is already accumulated, then report a removal
when the path does not resolve in `data2`. -/
def addRemovals (data1 data2 : Rec) (acc : List DiffEntry) :
    List (List String × Value) → List DiffEntry
  | [] => acc
  | (p, _) :: rest =>
      if acc.any (fun d => d.key == joinPath p) then
        addRemovals data1 data2 acc rest
      else
        match getProperty data2 p with
        | none =>
            addRemovals data1 data2
              (acc ++ [⟨joinPath p, Status.removed, getProperty data1 p, none⟩]) rest
        | some _ => addRemovals data1 data2 acc rest

/-- Modelled from the spec: the host `deepClone` (source lines 103-104)
produces an equal copy; on immutable modelled values it is the
identity. -/
def deepClone (r : Rec) : Rec := r

/-- Lexicographic comparison of two strings viewed as their code-point
lists: equal heads step on, otherwise the smaller code point decides. -/
def lexLe : List Char → List Char → Bool
  | [], _ => true
  | _ :: _, [] => false
  | a :: as, b :: bs => if a = b then lexLe as bs else decide (a.toNat < b.toNat)

/-- Modelled from the spec (section 4.1, step 4): the comparator of the
final `sort` (source line 164, `localeCompare`) is byte/lexicographic
order on the path strings. -/
def strLe (s t : String) : Bool := lexLe s.data t.data

theorem char_toNat_inj {a b : Char} (h : a.toNat = b.toNat) : a = b :=
  Char.ext (UInt32.ext h)

theorem lexLe_total : ∀ as bs, lexLe as bs = true ∨ lexLe bs as = true
  | [], _ => Or.inl rfl
  | _ :: _, [] => Or.inr rfl
  | a :: as, b :: bs => by
      by_cases hab : a = b
      · subst hab
        rcases lexLe_total as bs with h | h
        · exact Or.inl (by simp [lexLe, h])
        · exact Or.inr (by simp [lexLe, h])
      · rcases Nat.lt_trichotomy a.toNat b.toNat with h | h | h
        · exact Or.inl (by simp [lexLe, hab, h])
        · exact absurd (char_toNat_inj h) hab
        · exact Or.inr (by simp [lexLe, Ne.symm hab, h])

theorem lexLe_trans :
    ∀ as bs cs, lexLe as bs = true → lexLe bs cs = true → lexLe as cs = true
  | [], _, _ => by intros; rfl
  | a :: as, [], cs => by simp [lexLe]
  | a :: as, b :: bs, [] => by simp [lexLe]
  | a :: as, b :: bs, c :: cs => by
      by_cases hab : a = b <;> by_cases hbc : b = c
      · subst hab; subst hbc
        simp only [lexLe, if_pos rfl]
        exact lexLe_trans as bs cs
      · subst hab
        simp [lexLe, hbc]
      · subst hbc
        simp only [lexLe, if_neg hab]
        exact fun h _ => h
      · simp only [lexLe, if_neg hab, if_neg hbc, decide_eq_true_eq]
        intro h₁ h₂
        have hac : a.toNat < c.toNat := Nat.lt_trans h₁ h₂
        have hne : a ≠ c := fun h => by subst h; exact Nat.lt_irrefl _ hac
        simp [if_neg hne, hac]

theorem lexLe_antisymm : ∀ as bs, lexLe as bs = true → lexLe bs as = true → as = bs
  | [], [] => by intros; rfl
  | [], _ :: _ => by simp [lexLe]
  | _ :: _, [] => by simp [lexLe]
  | a :: as, b :: bs => by
      by_cases hab : a = b
      · subst hab
        simp only [lexLe, if_pos rfl]
        intro h₁ h₂
        rw [lexLe_antisymm as bs h₁ h₂]
      · simp only [lexLe, if_neg hab, if_neg (Ne.symm hab), decide_eq_true_eq]
        intro h₁ h₂
        exact absurd (Nat.lt_trans h₁ h₂) (Nat.lt_irrefl _)

theorem strLe_total (s t : String) : strLe s t = true ∨ strLe t s = true :=
  lexLe_total s.data t.data

theorem strLe_trans {s t u : String} (h₁ : strLe s t = true) (h₂ : strLe t u = true) :
    strLe s u = true :=
  lexLe_trans s.data t.data u.data h₁ h₂

theorem strLe_antisymm {s t : String} (h₁ : strLe s t = true) (h₂ : strLe t s = true) :
    s = t := by
  apply String.ext
  exact lexLe_antisymm s.data t.data h₁ h₂

instance : IsAntisymm String (fun s t => strLe s t = true) := ⟨fun _ _ => strLe_antisymm⟩

/-- The entry comparator of the final sort: byte/lexicographic order on
the `key` strings. -/
def localeLe (a b : DiffEntry) : Prop := strLe a.key b.key = true

instance : DecidableRel localeLe := fun a b => inferInstanceAs (Decidable (strLe a.key b.key = true))

instance : IsTotal DiffEntry localeLe := ⟨fun a b => strLe_total a.key b.key⟩

instance : IsTrans DiffEntry localeLe := ⟨fun _ _ _ h₁ h₂ => strLe_trans h₁ h₂⟩

/-- The source method `calculateDifferences(actor1, actor2)`, lines
96-165: return `[]` when either argument is null/absent (line 97-99);
otherwise clone both records, take the two directed diffs, classify the
forward diff into changes and additions, append removals from the
backward diff skipping already-reported keys, and sort by key.  The sort
is modelled by the stable `insertionSort`, matching the stable
implementation-chosen sort of `Array.prototype.sort`. -/
def calculateDifferences (actor1 actor2 : Option Rec) : List DiffEntry :=
  match actor1, actor2 with
  | some a1, some a2 =>
      let data1 := deepClone a1
      let data2 := deepClone a2
      let diff1to2 := diffObject data1 data2
      let diff2to1 := diffObject data2 data1
      let firstPass := diff1to2.map (fun pw => entryFor data1 data2 pw.1)
      let differences := addRemovals data1 data2 firstPass diff2to1
      differences.insertionSort localeLe
  | _, _ => []

mutual

/-- Keys of an object are pairwise distinct at every nesting level — true
of every JavaScript object. -/
def wfKeysV : Value → Bool
  | .vObj fs => wfKeysFields fs
  | _ => true

/-- Field-list form of `wfKeysV`. -/
def wfKeysFields : Rec → Bool
  | [] => true
  | (k, v) :: rest => rest.all (fun kv => !(kv.1 == k)) && wfKeysV v && wfKeysFields rest

end

/-- A key segment that contains no dot, so that its KeyPath strings are
unambiguous (spec section 3 presupposes this of every Record key). -/
def dotFree (s : String) : Bool := !(s.data.contains '.')

mutual

/-- No key anywhere in the value contains a dot. -/
def noDotV : Value → Bool
  | .vObj fs => noDotFields fs
  | _ => true

/-- Field-list form of `noDotV`. -/
def noDotFields : Rec → Bool
  | [] => true
  | (k, v) :: rest => dotFree k && noDotV v && noDotFields rest

end

mutual

/-- No leaf anywhere in the value is an explicit `undefined`. -/
def noUndefV : Value → Bool
  | .vUndef => false
  | .vObj fs => noUndefFields fs
  | _ => true

/-- Field-list form of `noUndefV`. -/
def noUndefFields : Rec → Bool
  | [] => true
  | (_, v) :: rest => noUndefV v && noUndefFields rest

end

/-- Shape invariant of a difference entry claimed by spec section 3:
a change carries both values, an addition only the new value, a removal
only the old value. -/
def entryWF (e : DiffEntry) : Prop :=
  (e.status = Status.changed → e.value1 ≠ none ∧ e.value2 ≠ none) ∧
  (e.status = Status.added → e.value1 = none ∧ e.value2 ≠ none) ∧
  (e.status = Status.removed → e.value1 ≠ none ∧ e.value2 = none)

/-- Key strings of the entries of a given status, in output order. -/
def statusKeys (l : List DiffEntry) (st : Status) : List String :=
  (l.filter (fun d => d.status == st)).map (fun d => d.key)

/-- Exchange the two value slots of an entry. -/
def swapValues (d : DiffEntry) : DiffEntry := ⟨d.key, d.status, d.value2, d.value1⟩


/-! ### Basic facts about lookups, flattening and the predicates -/

theorem stripUndef_eq_some {o : Option Value} {v : Value} :
    stripUndef o = some v ↔ o = some v ∧ v ≠ Value.vUndef := by
  cases o with
  | none => simp [stripUndef]
  | some w =>
      cases w <;> simp [stripUndef] <;> rintro rfl <;> simp

theorem stripUndef_some_of_ne {v : Value} (h : v ≠ Value.vUndef) :
    stripUndef (some v) = some v := by
  cases v <;> simp_all [stripUndef]

theorem lookAssoc_mem {l : Rec} {k : String} {v : Value} (h : lookAssoc l k = some v) :
    (k, v) ∈ l := by
  induction l with
  | nil => simp [lookAssoc] at h
  | cons kv rest ih =>
      obtain ⟨k₂, w⟩ := kv
      by_cases hk : k₂ = k
      · subst hk
        simp [lookAssoc] at h
        subst h
        exact List.mem_cons_self _ _
      · simp only [lookAssoc, if_neg hk] at h
        exact List.mem_cons_of_mem _ (ih h)

theorem mem_lookAssoc {fs : Rec} (h : wfKeysFields fs = true) {k : String} {v : Value}
    (hm : (k, v) ∈ fs) : lookAssoc fs k = some v := by
  induction fs with
  | nil => simp at hm
  | cons kv rest ih =>
      obtain ⟨k₂, w⟩ := kv
      simp only [wfKeysFields, Bool.and_eq_true, List.all_eq_true] at h
      obtain ⟨⟨hdist, hwv⟩, hrest⟩ := h
      rcases List.mem_cons.mp hm with heq | hmem
      · obtain ⟨rfl, rfl⟩ := Prod.mk.injEq .. ▸ heq
        simp_all [lookAssoc]
      · have hne : k₂ ≠ k := by
          intro hkk
          subst hkk
          have := hdist _ hmem
          simp at this
        simp only [lookAssoc, if_neg hne]
        exact ih hrest hmem

theorem wfKeysV_of_mem {fs : Rec} (h : wfKeysFields fs = true) {k : String} {v : Value}
    (hm : (k, v) ∈ fs) : wfKeysV v = true := by
  induction fs with
  | nil => simp at hm
  | cons kv rest ih =>
      obtain ⟨k₂, w⟩ := kv
      simp only [wfKeysFields, Bool.and_eq_true] at h
      rcases List.mem_cons.mp hm with heq | hmem
      · cases heq
        exact h.1.2
      · exact ih h.2 hmem

theorem noDotV_of_mem {fs : Rec} (h : noDotFields fs = true) {k : String} {v : Value}
    (hm : (k, v) ∈ fs) : noDotV v = true := by
  induction fs with
  | nil => simp at hm
  | cons kv rest ih =>
      obtain ⟨k₂, w⟩ := kv
      simp only [noDotFields, Bool.and_eq_true] at h
      rcases List.mem_cons.mp hm with heq | hmem
      · cases heq
        exact h.1.2
      · exact ih h.2 hmem

theorem dotFree_of_mem {fs : Rec} (h : noDotFields fs = true) {k : String} {v : Value}
    (hm : (k, v) ∈ fs) : dotFree k = true := by
  induction fs with
  | nil => simp at hm
  | cons kv rest ih =>
      obtain ⟨k₂, w⟩ := kv
      simp only [noDotFields, Bool.and_eq_true] at h
      rcases List.mem_cons.mp hm with heq | hmem
      · cases heq
        exact h.1.1
      · exact ih h.2 hmem

theorem noUndefV_of_mem {fs : Rec} (h : noUndefFields fs = true) {k : String} {v : Value}
    (hm : (k, v) ∈ fs) : noUndefV v = true := by
  induction fs with
  | nil => simp at hm
  | cons kv rest ih =>
      obtain ⟨k₂, w⟩ := kv
      simp only [noUndefFields, Bool.and_eq_true] at h
      rcases List.mem_cons.mp hm with heq | hmem
      · cases heq
        exact h.1
      · exact ih h.2 hmem

theorem ne_vUndef_of_noUndef {v : Value} (h : noUndefV v = true) : v ≠ Value.vUndef := by
  intro hv
  subst hv
  simp [noUndefV] at h

theorem getProperty_cons_none {r : Rec} {k : String} {p : List String}
    (h : lookAssoc r k = none) : getProperty r (k :: p) = none := by
  simp [getProperty, getPropV, h, stripUndef]

theorem getProperty_cons_some {r : Rec} {k : String} {v : Value} {p : List String}
    (h : lookAssoc r k = some v) :
    getProperty r (k :: p) = stripUndef (getPropV v p) := by
  simp [getProperty, getPropV, h]

theorem getProperty_single (r : Rec) (k : String) :
    getProperty r [k] = stripUndef (lookAssoc r k) := by
  cases h : lookAssoc r k with
  | none => simp [getProperty_cons_none h, stripUndef]
  | some v => simp [getProperty_cons_some h, getPropV]

theorem mem_diffFields {l r : Rec} {q : List String} {w : Value} :
    (q, w) ∈ diffFields l r ↔
      ∃ k q₂ v, q = k :: q₂ ∧ (k, v) ∈ r ∧
        (q₂, w) ∈ diffV (stripUndef (lookAssoc l k)) v := by
  induction r with
  | nil => simp [diffFields]
  | cons kv rest ih =>
      obtain ⟨k, v⟩ := kv
      simp only [diffFields, List.mem_append, List.mem_map, ih]
      constructor
      · rintro (⟨⟨q₂, w₂⟩, hmem, heq⟩ | ⟨k₂, q₂, v₂, rfl, hmem, hv⟩)
        · obtain ⟨rfl, rfl⟩ := Prod.mk.injEq .. ▸ heq
          exact ⟨k, q₂, v, rfl, List.mem_cons_self _ _, hmem⟩
        · exact ⟨k₂, q₂, v₂, rfl, List.mem_cons_of_mem _ hmem, hv⟩
      · rintro ⟨k₂, q₂, v₂, rfl, hmem, hv⟩
        rcases List.mem_cons.mp hmem with heq | hmem
        · obtain ⟨rfl, rfl⟩ := Prod.mk.injEq .. ▸ heq
          exact Or.inl ⟨(q₂, w), hv, rfl⟩
        · exact Or.inr ⟨k₂, q₂, v₂, rfl, hmem, hv⟩

/-! ### Unfolding equations for the diff walk -/

theorem diffV_obj_obj (lo ro : Rec) :
    diffV (some (Value.vObj lo)) (Value.vObj ro) = diffFields lo ro := rfl

theorem diffV_none_obj (ro : Rec) : diffV none (Value.vObj ro) = diffFields [] ro := rfl

theorem diffFields_nil (l : Rec) : diffFields l [] = [] := rfl

theorem diffFields_cons (l : Rec) (k : String) (v : Value) (rest : Rec) :
    diffFields l ((k, v) :: rest)
      = (diffV (stripUndef (lookAssoc l k)) v).map (fun pw => (k :: pw.1, pw.2))
        ++ diffFields l rest := rfl

theorem diffV_leaf (lv : Option Value) (v : Value)
    (h₁ : ∀ lo ro, lv = some (Value.vObj lo) → v = Value.vObj ro → False)
    (h₂ : ∀ ro, lv = none → v = Value.vObj ro → False) :
    diffV lv v = if lv = flatVal v then [] else [([], v)] := by
  cases lv with
  | none =>
      cases v with
      | vObj ro => exact (h₂ ro rfl rfl).elim
      | vUndef => rfl
      | vNull => rfl
      | vBool b => rfl
      | vNum n => rfl
      | vStr s => rfl
      | vArr a => rfl
  | some w =>
      cases w <;> cases v <;> try rfl
      rename_i lo ro
      exact (h₁ lo ro rfl rfl).elim

theorem getPropV_nil (v : Value) : getPropV v [] = some v := by
  cases v <;> rfl

theorem lookAssoc_head (k : String) (v : Value) (rest : Rec) :
    lookAssoc ((k, v) :: rest) k = some v := by
  simp [lookAssoc]

theorem lookAssoc_cons_ne {kh k : String} (vh : Value) (rest : Rec) (h : kh ≠ k) :
    lookAssoc ((kh, vh) :: rest) k = lookAssoc rest k := by
  simp [lookAssoc, h]

theorem getProperty_eq_of_lookAssoc {r₁ r₂ : Rec} {k : String}
    (h : lookAssoc r₁ k = lookAssoc r₂ k) (p : List String) :
    getProperty r₁ (k :: p) = getProperty r₂ (k :: p) := by
  cases hh : lookAssoc r₂ k with
  | none => rw [getProperty_cons_none (h.trans hh), getProperty_cons_none hh]
  | some v => rw [getProperty_cons_some (h.trans hh), getProperty_cons_some hh]

/-! ### Every reported path resolves in the right-hand record -/

theorem diffFields_getProp :
    ∀ (l r : Rec), wfKeysFields r = true → noUndefFields r = true →
      ∀ p w, (p, w) ∈ diffFields l r → getProperty r p = some w := by
  refine diffFields.induct
    (fun lv v => wfKeysV v = true → noUndefV v = true →
      ∀ p w, (p, w) ∈ diffV lv v → stripUndef (getPropV v p) = some w)
    (fun l r => wfKeysFields r = true → noUndefFields r = true →
      ∀ p w, (p, w) ∈ diffFields l r → getProperty r p = some w)
    ?_ ?_ ?_ ?_ ?_ ?_
  · intro lo ro ih hw hu p w hmem
    rw [diffV_obj_obj] at hmem
    exact ih hw hu p w hmem
  · intro ro ih hw hu p w hmem
    rw [diffV_none_obj] at hmem
    exact ih hw hu p w hmem
  · intro v h₁ h₂ hw hu p w hmem
    rw [diffV_leaf _ _ h₁ h₂, if_pos rfl] at hmem
    simp at hmem
  · intro lv v h₁ h₂ hne hw hu p w hmem
    rw [diffV_leaf _ _ h₁ h₂, if_neg hne] at hmem
    simp only [List.mem_singleton, Prod.mk.injEq] at hmem
    obtain ⟨rfl, rfl⟩ := hmem
    rw [getPropV_nil]
    exact stripUndef_some_of_ne (ne_vUndef_of_noUndef hu)
  · intro x hw hu p w hmem
    simp [diffFields_nil] at hmem
  · intro l k v rest ih1 ih2 hw hu p w hmem
    simp only [wfKeysFields, Bool.and_eq_true, List.all_eq_true] at hw
    obtain ⟨⟨hdist, hwv⟩, hwrest⟩ := hw
    simp only [noUndefFields, Bool.and_eq_true] at hu
    obtain ⟨huv, hurest⟩ := hu
    rw [diffFields_cons] at hmem
    rcases List.mem_append.mp hmem with hmap | hrest
    · obtain ⟨⟨q, w₂⟩, hq, heq⟩ := List.mem_map.mp hmap
      obtain ⟨rfl, rfl⟩ := Prod.mk.injEq .. ▸ heq
      rw [getProperty_cons_some (lookAssoc_head k v rest)]
      exact ih1 hwv huv q w₂ hq
    · obtain ⟨k₂, q₂, v₂, rfl, hmem₂, _⟩ := mem_diffFields.mp hrest
      have hne : k ≠ k₂ := by
        intro hkk
        subst hkk
        have := hdist _ hmem₂
        simp at this
      rw [getProperty_eq_of_lookAssoc (lookAssoc_cons_ne v rest hne) q₂]
      exact ih2 hwrest hurest _ w hrest

/-! ### Reported paths have dot-free segments and are pairwise distinct -/

theorem diffFields_dotFree :
    ∀ (l r : Rec), noDotFields r = true →
      ∀ p w, (p, w) ∈ diffFields l r → ∀ s ∈ p, dotFree s = true := by
  refine diffFields.induct
    (fun lv v => noDotV v = true →
      ∀ p w, (p, w) ∈ diffV lv v → ∀ s ∈ p, dotFree s = true)
    (fun l r => noDotFields r = true →
      ∀ p w, (p, w) ∈ diffFields l r → ∀ s ∈ p, dotFree s = true)
    ?_ ?_ ?_ ?_ ?_ ?_
  · intro lo ro ih hd p w hmem
    rw [diffV_obj_obj] at hmem
    exact ih hd p w hmem
  · intro ro ih hd p w hmem
    rw [diffV_none_obj] at hmem
    exact ih hd p w hmem
  · intro v h₁ h₂ hd p w hmem
    rw [diffV_leaf _ _ h₁ h₂, if_pos rfl] at hmem
    simp at hmem
  · intro lv v h₁ h₂ hne hd p w hmem
    rw [diffV_leaf _ _ h₁ h₂, if_neg hne] at hmem
    simp only [List.mem_singleton, Prod.mk.injEq] at hmem
    obtain ⟨rfl, rfl⟩ := hmem
    intro s hs
    simp at hs
  · intro x hd p w hmem
    simp [diffFields_nil] at hmem
  · intro l k v rest ih1 ih2 hd p w hmem
    simp only [noDotFields, Bool.and_eq_true] at hd
    obtain ⟨⟨hdk, hdv⟩, hdrest⟩ := hd
    rw [diffFields_cons] at hmem
    rcases List.mem_append.mp hmem with hmap | hrest
    · obtain ⟨⟨q, w₂⟩, hq, heq⟩ := List.mem_map.mp hmap
      obtain ⟨rfl, rfl⟩ := Prod.mk.injEq .. ▸ heq
      intro s hs
      rcases List.mem_cons.mp hs with rfl | hs
      · exact hdk
      · exact ih1 hdv q w₂ hq s hs
    · exact ih2 hdrest p w hrest

theorem diffFields_fst_nodup :
    ∀ (l r : Rec), wfKeysFields r = true →
      ((diffFields l r).map Prod.fst).Nodup := by
  refine diffFields.induct
    (fun lv v => wfKeysV v = true → ((diffV lv v).map Prod.fst).Nodup)
    (fun l r => wfKeysFields r = true → ((diffFields l r).map Prod.fst).Nodup)
    ?_ ?_ ?_ ?_ ?_ ?_
  · intro lo ro ih hw
    rw [diffV_obj_obj]
    exact ih hw
  · intro ro ih hw
    rw [diffV_none_obj]
    exact ih hw
  · intro v h₁ h₂ hw
    rw [diffV_leaf _ _ h₁ h₂, if_pos rfl]
    simp
  · intro lv v h₁ h₂ hne hw
    rw [diffV_leaf _ _ h₁ h₂, if_neg hne]
    simp
  · intro x hw
    simp [diffFields_nil]
  · intro l k v rest ih1 ih2 hw
    simp only [wfKeysFields, Bool.and_eq_true, List.all_eq_true] at hw
    obtain ⟨⟨hdist, hwv⟩, hwrest⟩ := hw
    rw [diffFields_cons, List.map_append]
    refine List.Nodup.append ?_ (ih2 hwrest) ?_
    · rw [List.map_map]
      have : (Prod.fst ∘ fun pw : List String × Value => (k :: pw.1, pw.2))
          = (fun q => k :: q) ∘ Prod.fst := rfl
      rw [this, ← List.map_map]
      exact (ih1 hwv).map (fun a b h => (List.cons.injEq .. ▸ h).2)
    · intro x hx hx₂
      simp only [List.map_map] at hx
      obtain ⟨⟨q, w⟩, hq, rfl⟩ := List.mem_map.mp hx
      obtain ⟨⟨q₂, w₂⟩, hq₂, hxeq⟩ := List.mem_map.mp hx₂
      obtain ⟨k₂, q₃, v₃, heq, hmem₃, _⟩ := mem_diffFields.mp hq₂
      have hk : k₂ = k := by
        have : (q₂ : List String) = k₂ :: q₃ := heq
        have h2 : (k₂ : String) :: q₃ = k :: q := by
          rw [← this]
          exact hxeq
        exact (List.cons.injEq .. ▸ h2).1
      subst hk
      have := hdist _ hmem₃
      simp at this

/-! ### Dot-joined KeyPath strings are unambiguous for dot-free segments -/

theorem dotFree_iff {s : String} : dotFree s = true ↔ ('.' : Char) ∉ s.data := by
  simp [dotFree, List.contains_iff_exists_mem_beq]

theorem joinPath_cons (s : String) {rest : List String} (h : rest ≠ []) :
    joinPath (s :: rest) = s ++ "." ++ joinPath rest := by
  cases rest with
  | nil => exact absurd rfl h
  | cons t r₃ => rfl

theorem sep_split {d : Char} :
    ∀ {a₁ a₂ t₁ t₂ : List Char}, a₁ ++ d :: t₁ = a₂ ++ d :: t₂ →
      d ∉ a₁ → d ∉ a₂ → a₁ = a₂ ∧ t₁ = t₂ := by
  intro a₁
  induction a₁ with
  | nil =>
      intro a₂ t₁ t₂ h h₁ h₂
      cases a₂ with
      | nil => simpa using h
      | cons b bs =>
          simp only [List.nil_append, List.cons_append, List.cons.injEq] at h
          refine absurd ?_ h₂
          rw [h.1]
          exact List.mem_cons_self b bs
  | cons a as ih =>
      intro a₂ t₁ t₂ h h₁ h₂
      cases a₂ with
      | nil =>
          simp only [List.nil_append, List.cons_append, List.cons.injEq] at h
          refine absurd ?_ h₁
          rw [← h.1]
          exact List.mem_cons_self a as
      | cons b bs =>
          simp only [List.cons_append, List.cons.injEq] at h
          obtain ⟨rfl, h⟩ := h
          have := ih h (fun hm => h₁ (List.mem_cons_of_mem _ hm))
            (fun hm => h₂ (List.mem_cons_of_mem _ hm))
          exact ⟨by rw [this.1], this.2⟩

theorem joinPath_data_cons (s : String) {rest : List String} (h : rest ≠ []) :
    (joinPath (s :: rest)).data = s.data ++ '.' :: (joinPath rest).data := by
  rw [joinPath_cons s h, String.data_append, String.data_append]
  have hd : (".").data = ['.'] := by decide
  rw [hd, List.append_assoc]
  rfl

theorem joinPath_inj :
    ∀ (p₁ p₂ : List String), p₁ ≠ [] → p₂ ≠ [] →
      (∀ s ∈ p₁, dotFree s = true) → (∀ s ∈ p₂, dotFree s = true) →
      joinPath p₁ = joinPath p₂ → p₁ = p₂ := by
  intro p₁
  induction p₁ with
  | nil => intro _ h; exact absurd rfl h
  | cons s₁ r₁ ih =>
      intro p₂ _ hne₂ hd₁ hd₂ hj
      cases p₂ with
      | nil => exact absurd rfl hne₂
      | cons s₂ r₂ =>
          by_cases hr₁ : r₁ = []
          · subst hr₁
            by_cases hr₂ : r₂ = []
            · subst hr₂
              simpa using hj
            · exfalso
              have hdata : s₁.data = s₂.data ++ '.' :: (joinPath r₂).data := by
                have : (joinPath [s₁]).data = (joinPath (s₂ :: r₂)).data := by rw [hj]
                rw [joinPath_data_cons s₂ hr₂] at this
                exact this
              have : ('.' : Char) ∈ s₁.data := by
                rw [hdata]
                exact List.mem_append.mpr (Or.inr (List.mem_cons_self _ _))
              exact dotFree_iff.mp (hd₁ s₁ (List.mem_cons_self _ _)) this
          · by_cases hr₂ : r₂ = []
            · exfalso
              subst hr₂
              have hdata : s₂.data = s₁.data ++ '.' :: (joinPath r₁).data := by
                have : (joinPath (s₁ :: r₁)).data = (joinPath [s₂]).data := by rw [hj]
                rw [joinPath_data_cons s₁ hr₁] at this
                exact this.symm
              have : ('.' : Char) ∈ s₂.data := by
                rw [hdata]
                exact List.mem_append.mpr (Or.inr (List.mem_cons_self _ _))
              exact dotFree_iff.mp (hd₂ s₂ (List.mem_cons_self _ _)) this
            · have hdata : s₁.data ++ '.' :: (joinPath r₁).data
                  = s₂.data ++ '.' :: (joinPath r₂).data := by
                rw [← joinPath_data_cons s₁ hr₁, ← joinPath_data_cons s₂ hr₂, hj]
              have hsplit := sep_split hdata
                (dotFree_iff.mp (hd₁ s₁ (List.mem_cons_self _ _)))
                (dotFree_iff.mp (hd₂ s₂ (List.mem_cons_self _ _)))
              have hs : s₁ = s₂ := String.ext hsplit.1
              have hrest : r₁ = r₂ := by
                refine ih r₂ hr₁ hr₂
                  (fun s hs₂ => hd₁ s (List.mem_cons_of_mem _ hs₂))
                  (fun s hs₂ => hd₂ s (List.mem_cons_of_mem _ hs₂))
                  (String.ext hsplit.2)
              rw [hs, hrest]

/-! ### Symmetry of the diff walk on undefined-free records -/

theorem getPropV_obj_cons_none {fs : Rec} {k : String} {p : List String}
    (h : lookAssoc fs k = none) : getPropV (Value.vObj fs) (k :: p) = none := by
  simp [getPropV, h]

theorem getPropV_obj_cons_some {fs : Rec} {k : String} {v : Value} {p : List String}
    (h : lookAssoc fs k = some v) : getPropV (Value.vObj fs) (k :: p) = getPropV v p := by
  simp [getPropV, h]

theorem wfKeysV_obj (fs : Rec) : wfKeysV (Value.vObj fs) = wfKeysFields fs := rfl

theorem noUndefV_obj (fs : Rec) : noUndefV (Value.vObj fs) = noUndefFields fs := rfl

theorem noDotV_obj (fs : Rec) : noDotV (Value.vObj fs) = noDotFields fs := rfl

theorem Value.sizeOf_pos (v : Value) : 0 < sizeOf v := by
  cases v <;> simp_arith

theorem sizeOf_val_lt {fs : Rec} {k : String} {v : Value} (h : (k, v) ∈ fs) :
    sizeOf v < sizeOf (Value.vObj fs) := by
  have h₁ := List.sizeOf_lt_of_mem h
  simp only [Prod.mk.sizeOf_spec] at h₁
  simp only [Value.vObj.sizeOf_spec]
  omega

theorem diffV_leaf_of_not_obj {a b : Value} (hb : ∀ fs, b ≠ Value.vObj fs) :
    diffV (some a) b = if some a = flatVal b then [] else [([], b)] :=
  diffV_leaf _ _ (fun _ ro _ hbo => hb ro hbo) (fun _ h => Option.noConfusion h)

theorem diffV_nonobj_obj {a : Value} (ha : ∀ fs, a ≠ Value.vObj fs) (ro : Rec) :
    diffV (some a) (Value.vObj ro) = [([], Value.vObj ro)] := by
  rw [diffV_leaf _ _ (fun lo _ hao _ => ha lo (Option.some.inj hao))
      (fun _ h => Option.noConfusion h)]
  rw [if_neg]
  intro h
  exact ha ro (Option.some.inj h)

theorem diffV_symm_aux :
    ∀ (n : Nat) (a b : Value), sizeOf a + sizeOf b ≤ n →
      wfKeysV a = true → wfKeysV b = true →
      noUndefV a = true → noUndefV b = true →
      ∀ q v w, (q, v) ∈ diffV (some a) b →
        stripUndef (getPropV a q) = some w →
        (q, w) ∈ diffV (some b) a := by
  intro n
  induction n with
  | zero =>
      intro a b hsize
      have := Value.sizeOf_pos a
      have := Value.sizeOf_pos b
      omega
  | succ n ih =>
      intro a b hsize hwa hwb hua hub q v w hmem hget
      by_cases hbobj : ∃ fs, b = Value.vObj fs
      · obtain ⟨ro, rfl⟩ := hbobj
        by_cases haobj : ∃ fs, a = Value.vObj fs
        · obtain ⟨lo, rfl⟩ := haobj
          rw [diffV_obj_obj] at hmem
          obtain ⟨k, q₂, rv, rfl, hkrv, hq₂⟩ := mem_diffFields.mp hmem
          cases hla : lookAssoc lo k with
          | none =>
              rw [getPropV_obj_cons_none hla] at hget
              simp [stripUndef] at hget
          | some av =>
              have hmemav : (k, av) ∈ lo := lookAssoc_mem hla
              rw [noUndefV_obj] at hua hub
              rw [wfKeysV_obj] at hwa hwb
              have huav : noUndefV av = true := noUndefV_of_mem hua hmemav
              have hurv : noUndefV rv = true := noUndefV_of_mem hub hkrv
              rw [getPropV_obj_cons_some hla] at hget
              have hstrip : stripUndef (lookAssoc lo k) = some av := by
                rw [hla]
                exact stripUndef_some_of_ne (ne_vUndef_of_noUndef huav)
              rw [hstrip] at hq₂
              have hsa : sizeOf av < sizeOf (Value.vObj lo) := sizeOf_val_lt hmemav
              have hsb : sizeOf rv < sizeOf (Value.vObj ro) := sizeOf_val_lt hkrv
              have hrec := ih av rv (by omega)
                (wfKeysV_of_mem hwa hmemav) (wfKeysV_of_mem hwb hkrv)
                huav hurv q₂ v w hq₂ hget
              rw [diffV_obj_obj]
              refine mem_diffFields.mpr ⟨k, q₂, av, rfl, hmemav, ?_⟩
              rw [mem_lookAssoc hwb hkrv,
                stripUndef_some_of_ne (ne_vUndef_of_noUndef hurv)]
              exact hrec
        · have hanot : ∀ fs, a ≠ Value.vObj fs := fun fs h => haobj ⟨fs, h⟩
          rw [diffV_nonobj_obj hanot ro] at hmem
          simp only [List.mem_singleton, Prod.mk.injEq] at hmem
          obtain ⟨rfl, rfl⟩ := hmem
          rw [getPropV_nil, stripUndef_some_of_ne (ne_vUndef_of_noUndef hua)] at hget
          obtain rfl := Option.some.inj hget
          rw [diffV_leaf_of_not_obj hanot, if_neg]
          · exact List.mem_singleton.mpr rfl
          · intro h
            rw [flatVal, stripUndef_some_of_ne (ne_vUndef_of_noUndef hua)] at h
            exact hanot ro (Option.some.inj h).symm
      · have hbnot : ∀ fs, b ≠ Value.vObj fs := fun fs h => hbobj ⟨fs, h⟩
        rw [diffV_leaf_of_not_obj hbnot] at hmem
        by_cases heq : some a = flatVal b
        · rw [if_pos heq] at hmem
          simp at hmem
        · rw [if_neg heq] at hmem
          simp only [List.mem_singleton, Prod.mk.injEq] at hmem
          obtain ⟨rfl, rfl⟩ := hmem
          rw [getPropV_nil, stripUndef_some_of_ne (ne_vUndef_of_noUndef hua)] at hget
          obtain rfl := Option.some.inj hget
          by_cases haobj : ∃ fs, a = Value.vObj fs
          · obtain ⟨lo, rfl⟩ := haobj
            rw [diffV_nonobj_obj hbnot lo]
            exact List.mem_singleton.mpr rfl
          · have hanot : ∀ fs, a ≠ Value.vObj fs := fun fs h => haobj ⟨fs, h⟩
            rw [diffV_leaf_of_not_obj hanot, if_neg]
            · exact List.mem_singleton.mpr rfl
            · intro h
              apply heq
              rw [flatVal, stripUndef_some_of_ne (ne_vUndef_of_noUndef hua)] at h
              rw [flatVal, stripUndef_some_of_ne (ne_vUndef_of_noUndef hub)]
              exact (congrArg some (Option.some.inj h)).symm

theorem diffFields_symm {l r : Rec}
    (hwl : wfKeysFields l = true) (hwr : wfKeysFields r = true)
    (hul : noUndefFields l = true) (hur : noUndefFields r = true) :
    ∀ p v w, (p, v) ∈ diffFields l r → getProperty l p = some w →
      (p, w) ∈ diffFields r l := by
  intro p v w hmem hget
  obtain ⟨k, q, rv, rfl, hkrv, hq⟩ := mem_diffFields.mp hmem
  cases hla : lookAssoc l k with
  | none =>
      rw [getProperty_cons_none hla] at hget
      cases hget
  | some av =>
      have hmemav : (k, av) ∈ l := lookAssoc_mem hla
      have huav : noUndefV av = true := noUndefV_of_mem hul hmemav
      have hurv : noUndefV rv = true := noUndefV_of_mem hur hkrv
      rw [getProperty_cons_some hla] at hget
      have hstrip : stripUndef (lookAssoc l k) = some av := by
        rw [hla]
        exact stripUndef_some_of_ne (ne_vUndef_of_noUndef huav)
      rw [hstrip] at hq
      have hrec := diffV_symm_aux (sizeOf av + sizeOf rv) av rv le_rfl
        (wfKeysV_of_mem hwl hmemav) (wfKeysV_of_mem hwr hkrv) huav hurv q v w hq hget
      refine mem_diffFields.mpr ⟨k, q, av, rfl, hmemav, ?_⟩
      rw [mem_lookAssoc hwr hkrv, stripUndef_some_of_ne (ne_vUndef_of_noUndef hurv)]
      exact hrec

/-! ### Identical records diff to nothing -/

theorem diffV_none_nonobj {b : Value} (hb : ∀ fs, b ≠ Value.vObj fs) :
    diffV none b = if none = flatVal b then [] else [([], b)] :=
  diffV_leaf _ _ (fun _ _ h => Option.noConfusion h) (fun ro _ hbo => hb ro hbo)

theorem diffV_self_aux :
    ∀ (n : Nat) (v : Value), sizeOf v ≤ n → wfKeysV v = true →
      diffV (flatVal v) v = [] := by
  intro n
  induction n with
  | zero =>
      intro v hsize
      have := Value.sizeOf_pos v
      omega
  | succ n ih =>
      intro v hsize hw
      by_cases hobj : ∃ fs, v = Value.vObj fs
      · obtain ⟨fs, rfl⟩ := hobj
        rw [wfKeysV_obj] at hw
        have hflat : flatVal (Value.vObj fs) = some (Value.vObj fs) := rfl
        rw [hflat, diffV_obj_obj]
        have inner : ∀ r₂ : Rec, (∀ kv ∈ r₂, kv ∈ fs) → diffFields fs r₂ = [] := by
          intro r₂
          induction r₂ with
          | nil => intro _; rfl
          | cons kv rest ihr =>
              intro hsub
              obtain ⟨k, w⟩ := kv
              rw [diffFields_cons]
              have hmem : (k, w) ∈ fs := hsub _ (List.mem_cons_self _ _)
              have hlk : lookAssoc fs k = some w := mem_lookAssoc hw hmem
              have hzero : diffV (stripUndef (lookAssoc fs k)) w = [] := by
                rw [hlk]
                have hsw : sizeOf w ≤ n := by
                  have := sizeOf_val_lt hmem
                  omega
                exact ih w hsw (wfKeysV_of_mem hw hmem)
              rw [hzero, List.map_nil, List.nil_append]
              exact ihr (fun kv₂ h₂ => hsub kv₂ (List.mem_cons_of_mem _ h₂))
        exact inner fs (fun _ h => h)
      · have hnot : ∀ fs, v ≠ Value.vObj fs := fun fs h => hobj ⟨fs, h⟩
        by_cases hu : v = Value.vUndef
        · subst hu
          have hnone : flatVal Value.vUndef = none := rfl
          rw [hnone, diffV_none_nonobj hnot, hnone, if_pos rfl]
        · have hflat : flatVal v = some v := stripUndef_some_of_ne hu
          rw [hflat, diffV_leaf_of_not_obj hnot, hflat, if_pos rfl]

theorem diffV_self (v : Value) (hw : wfKeysV v = true) : diffV (flatVal v) v = [] :=
  diffV_self_aux (sizeOf v) v le_rfl hw

theorem diffFields_self {r : Rec} (hw : wfKeysFields r = true) : diffFields r r = [] := by
  suffices h : ∀ r₂ : Rec, (∀ kv ∈ r₂, kv ∈ r) → diffFields r r₂ = [] from
    h r (fun _ h₂ => h₂)
  intro r₂
  induction r₂ with
  | nil => intro _; rfl
  | cons kv rest ihr =>
      intro hsub
      obtain ⟨k, w⟩ := kv
      rw [diffFields_cons]
      have hmem : (k, w) ∈ r := hsub _ (List.mem_cons_self _ _)
      have hlk : lookAssoc r k = some w := mem_lookAssoc hw hmem
      have hzero : diffV (stripUndef (lookAssoc r k)) w = [] := by
        rw [hlk]
        exact diffV_self w (wfKeysV_of_mem hw hmem)
      rw [hzero, List.map_nil, List.nil_append]
      exact ihr (fun kv₂ h₂ => hsub kv₂ (List.mem_cons_of_mem _ h₂))

/-! ### The two passes of `calculateDifferences`, characterised -/

/-- The removal entry pushed by the second pass at path `p`. -/
def removalEntry (d1 : Rec) (p : List String) : DiffEntry :=
  ⟨joinPath p, Status.removed, getProperty d1 p, none⟩

theorem calculateDifferences_some (a1 a2 : Rec) :
    calculateDifferences (some a1) (some a2)
      = List.insertionSort localeLe
          (addRemovals a1 a2 ((diffObject a1 a2).map (fun pw => entryFor a1 a2 pw.1))
            (diffObject a2 a1)) := rfl

theorem addRemovals_nil (d1 d2 : Rec) (acc : List DiffEntry) :
    addRemovals d1 d2 acc [] = acc := rfl

theorem addRemovals_cons (d1 d2 : Rec) (acc : List DiffEntry) (p : List String)
    (v : Value) (rest : List (List String × Value)) :
    addRemovals d1 d2 acc ((p, v) :: rest)
      = if acc.any (fun d => d.key == joinPath p) then addRemovals d1 d2 acc rest
        else
          match getProperty d2 p with
          | none => addRemovals d1 d2 (acc ++ [removalEntry d1 p]) rest
          | some _ => addRemovals d1 d2 acc rest := rfl

theorem addRemovals_eq (d1 d2 : Rec) :
    ∀ (L : List (List String × Value)) (acc : List DiffEntry),
      (∀ pw ∈ L, getProperty d2 pw.1 = none → ∀ e ∈ acc, e.key ≠ joinPath pw.1) →
      (L.map (fun pw => joinPath pw.1)).Nodup →
      addRemovals d1 d2 acc L
        = acc ++ (L.filter (fun pw => (getProperty d2 pw.1).isNone)).map
            (fun pw => removalEntry d1 pw.1) := by
  intro L
  induction L with
  | nil => intro acc _ _; simp [addRemovals_nil]
  | cons pv rest ih =>
      intro acc hfresh hnd
      obtain ⟨p, v⟩ := pv
      rw [addRemovals_cons]
      cases hgp : getProperty d2 p with
      | some w =>
          have htail : addRemovals d1 d2 acc rest
              = acc ++ (rest.filter (fun pw => (getProperty d2 pw.1).isNone)).map
                  (fun pw => removalEntry d1 pw.1) :=
            ih acc (fun pw hpw hnone => hfresh pw (List.mem_cons_of_mem _ hpw) hnone)
              (List.nodup_cons.mp hnd).2
          have hdrop : ((p, v) :: rest).filter (fun pw => (getProperty d2 pw.1).isNone)
              = rest.filter (fun pw => (getProperty d2 pw.1).isNone) := by
            simp [List.filter_cons, hgp]
          rw [hdrop]
          by_cases hg : (acc.any fun d => d.key == joinPath p) = true
          · rw [if_pos hg]
            exact htail
          · rw [if_neg hg]
            exact htail
      | none =>
          have hg : ¬ (acc.any fun d => d.key == joinPath p) = true := by
            rw [List.any_eq_true]
            rintro ⟨e, he, hbe⟩
            rw [beq_iff_eq] at hbe
            exact hfresh (p, v) (List.mem_cons_self _ _) hgp e he hbe
          rw [if_neg hg]
          change addRemovals d1 d2 (acc ++ [removalEntry d1 p]) rest = _
          have hkeep : ((p, v) :: rest).filter (fun pw => (getProperty d2 pw.1).isNone)
              = (p, v) :: rest.filter (fun pw => (getProperty d2 pw.1).isNone) := by
            simp [List.filter_cons, hgp]
          rw [hkeep]
          have hfresh₂ : ∀ pw ∈ rest, getProperty d2 pw.1 = none →
              ∀ e ∈ acc ++ [removalEntry d1 p], e.key ≠ joinPath pw.1 := by
            intro pw hpw hnone e he
            rcases List.mem_append.mp he with he | he
            · exact hfresh pw (List.mem_cons_of_mem _ hpw) hnone e he
            · rw [List.mem_singleton.mp he]
              show joinPath p ≠ joinPath pw.1
              intro hj
              have : joinPath p ∈ rest.map (fun pw => joinPath pw.1) := by
                rw [hj]
                exact List.mem_map_of_mem _ hpw
              exact (List.nodup_cons.mp hnd).1 this
          rw [ih (acc ++ [removalEntry d1 p]) hfresh₂ (List.nodup_cons.mp hnd).2]
          simp [List.append_assoc]

theorem addRemovals_mem {d1 d2 : Rec} :
    ∀ (L : List (List String × Value)) (acc : List DiffEntry) {e : DiffEntry},
      e ∈ addRemovals d1 d2 acc L →
      e ∈ acc ∨ ∃ pw, pw ∈ L ∧ e = removalEntry d1 pw.1 ∧ getProperty d2 pw.1 = none := by
  intro L
  induction L with
  | nil =>
      intro acc e h
      rw [addRemovals_nil] at h
      exact Or.inl h
  | cons pv rest ih =>
      intro acc e h
      obtain ⟨p, v⟩ := pv
      rw [addRemovals_cons] at h
      by_cases hg : (acc.any fun d => d.key == joinPath p) = true
      · rw [if_pos hg] at h
        rcases ih acc h with h | ⟨pw, hpw, he⟩
        · exact Or.inl h
        · exact Or.inr ⟨pw, List.mem_cons_of_mem _ hpw, he⟩
      · rw [if_neg hg] at h
        cases hgp : getProperty d2 p with
        | none =>
            rw [hgp] at h
            rcases ih _ h with h | ⟨pw, hpw, he⟩
            · rcases List.mem_append.mp h with h | h
              · exact Or.inl h
              · exact Or.inr ⟨(p, v), List.mem_cons_self _ _,
                  List.mem_singleton.mp h, hgp⟩
            · exact Or.inr ⟨pw, List.mem_cons_of_mem _ hpw, he⟩
        | some w =>
            rw [hgp] at h
            rcases ih acc h with h | ⟨pw, hpw, he⟩
            · exact Or.inl h
            · exact Or.inr ⟨pw, List.mem_cons_of_mem _ hpw, he⟩

theorem addRemovals_nodup {d1 d2 : Rec} :
    ∀ (L : List (List String × Value)) (acc : List DiffEntry),
      ((acc.map DiffEntry.key).Nodup) →
      (((addRemovals d1 d2 acc L).map DiffEntry.key).Nodup) := by
  intro L
  induction L with
  | nil =>
      intro acc h
      rw [addRemovals_nil]
      exact h
  | cons pv rest ih =>
      intro acc h
      obtain ⟨p, v⟩ := pv
      rw [addRemovals_cons]
      by_cases hg : (acc.any fun d => d.key == joinPath p) = true
      · rw [if_pos hg]
        exact ih acc h
      · rw [if_neg hg]
        cases hgp : getProperty d2 p with
        | none =>
            change ((List.map DiffEntry.key
              (addRemovals d1 d2 (acc ++ [removalEntry d1 p]) rest)).Nodup)
            refine ih _ ?_
            rw [List.map_append]
            refine List.Nodup.append h (by simp) ?_
            intro x hx hx₂
            simp only [List.map_cons, List.map_nil, List.mem_singleton] at hx₂
            subst hx₂
            obtain ⟨e, he, hke⟩ := List.mem_map.mp hx
            rw [List.any_eq_true] at hg
            push_neg at hg
            have hne := hg e he
            have hkey : e.key = joinPath p := hke
            exact hne (beq_iff_eq.mpr hkey)
        | some w =>
            exact ih acc h

/-! ### Entry-level facts and the pre-sort decomposition -/

theorem entryFor_key (d1 d2 : Rec) (p : List String) :
    (entryFor d1 d2 p).key = joinPath p := by
  cases h : getProperty d1 p <;> simp [entryFor, h]

theorem entryFor_changed {d1 : Rec} (d2 : Rec) {p : List String} {v1 : Value}
    (h : getProperty d1 p = some v1) :
    entryFor d1 d2 p = ⟨joinPath p, Status.changed, some v1, getProperty d2 p⟩ := by
  simp [entryFor, h]

theorem entryFor_added {d1 : Rec} (d2 : Rec) {p : List String}
    (h : getProperty d1 p = none) :
    entryFor d1 d2 p = ⟨joinPath p, Status.added, none, getProperty d2 p⟩ := by
  simp [entryFor, h]

theorem entryFor_status_changed (d1 d2 : Rec) (p : List String) :
    ((entryFor d1 d2 p).status == Status.changed) = (getProperty d1 p).isSome := by
  cases h : getProperty d1 p <;> simp [entryFor, h]

theorem entryFor_status_added (d1 d2 : Rec) (p : List String) :
    ((entryFor d1 d2 p).status == Status.added) = (getProperty d1 p).isNone := by
  cases h : getProperty d1 p <;> simp [entryFor, h]

theorem entryFor_status_removed (d1 d2 : Rec) (p : List String) :
    ((entryFor d1 d2 p).status == Status.removed) = false := by
  cases h : getProperty d1 p <;> simp [entryFor, h]

theorem removalEntry_key (d1 : Rec) (p : List String) :
    (removalEntry d1 p).key = joinPath p := rfl

theorem swapValues_key (d : DiffEntry) : (swapValues d).key = d.key := rfl

theorem swapValues_status (d : DiffEntry) : (swapValues d).status = d.status := rfl

theorem swap_entryFor {a1 a2 : Rec} {p : List String} {v1 v2 : Value}
    (h1 : getProperty a1 p = some v1) (h2 : getProperty a2 p = some v2) :
    swapValues (entryFor a2 a1 p) = entryFor a1 a2 p := by
  rw [entryFor_changed a1 h2, entryFor_changed a2 h1]
  simp [swapValues, h1, h2]

theorem diffFields_path_shape {l r : Rec} (hd : noDotFields r = true) {p : List String}
    {w : Value} (h : (p, w) ∈ diffFields l r) :
    p ≠ [] ∧ ∀ s ∈ p, dotFree s = true := by
  obtain ⟨k, q, v, rfl, _, _⟩ := mem_diffFields.mp h
  exact ⟨List.cons_ne_nil _ _, diffFields_dotFree l r hd _ w h⟩

theorem diffObject_joined_nodup {a1 a2 : Rec} (hw : wfKeysFields a2 = true)
    (hd : noDotFields a2 = true) :
    ((diffObject a1 a2).map (fun pw => joinPath pw.1)).Nodup := by
  have h1 : ((diffObject a1 a2).map Prod.fst).Nodup := diffFields_fst_nodup a1 a2 hw
  have h2 : (diffObject a1 a2).map (fun pw => joinPath pw.1)
      = ((diffObject a1 a2).map Prod.fst).map joinPath := by rw [List.map_map]; rfl
  rw [h2]
  refine h1.map_on ?_ 
  intro x hx y hy hxy
  obtain ⟨⟨px, wx⟩, hpx, rfl⟩ := List.mem_map.mp hx
  obtain ⟨⟨py, wy⟩, hpy, rfl⟩ := List.mem_map.mp hy
  have hsx := diffFields_path_shape hd hpx
  have hsy := diffFields_path_shape hd hpy
  exact joinPath_inj _ _ hsx.1 hsy.1 hsx.2 hsy.2 hxy

theorem firstPass_keys_nodup {a1 a2 : Rec} (hw : wfKeysFields a2 = true)
    (hd : noDotFields a2 = true) :
    (((diffObject a1 a2).map (fun pw => entryFor a1 a2 pw.1)).map DiffEntry.key).Nodup := by
  have h : ((diffObject a1 a2).map (fun pw => entryFor a1 a2 pw.1)).map DiffEntry.key
      = (diffObject a1 a2).map (fun pw => joinPath pw.1) := by
    rw [List.map_map]
    exact List.map_congr_left (fun pw _ => entryFor_key a1 a2 pw.1)
  rw [h]
  exact diffObject_joined_nodup hw hd

theorem calc_keys_nodup {a1 a2 : Rec} (hw : wfKeysFields a2 = true)
    (hd : noDotFields a2 = true) :
    ((calculateDifferences (some a1) (some a2)).map DiffEntry.key).Nodup := by
  rw [calculateDifferences_some]
  have hperm : (List.insertionSort localeLe
      (addRemovals a1 a2 ((diffObject a1 a2).map (fun pw => entryFor a1 a2 pw.1))
        (diffObject a2 a1))).Perm
      (addRemovals a1 a2 ((diffObject a1 a2).map (fun pw => entryFor a1 a2 pw.1))
        (diffObject a2 a1)) := List.perm_insertionSort localeLe _
  refine (List.Perm.nodup_iff (hperm.map DiffEntry.key)).mpr ?_
  exact addRemovals_nodup _ _ (firstPass_keys_nodup hw hd)

theorem calc_self_eq_nil {r : Rec} (hw : wfKeysFields r = true) :
    calculateDifferences (some r) (some r) = [] := by
  have h0 : diffObject r r = [] := diffFields_self hw
  rw [calculateDifferences_some, h0]
  rfl

theorem diffs_decomp (a1 a2 : Rec) (hw1 : wfKeysFields a1 = true)
    (hw2 : wfKeysFields a2 = true) (hd1 : noDotFields a1 = true)
    (hd2 : noDotFields a2 = true) (hu2 : noUndefFields a2 = true) :
    addRemovals a1 a2 ((diffObject a1 a2).map (fun pw => entryFor a1 a2 pw.1))
        (diffObject a2 a1)
      = ((diffObject a1 a2).map (fun pw => entryFor a1 a2 pw.1))
        ++ ((diffObject a2 a1).filter (fun pw => (getProperty a2 pw.1).isNone)).map
            (fun pw => removalEntry a1 pw.1) := by
  refine addRemovals_eq a1 a2 (diffObject a2 a1) _ ?_ (diffObject_joined_nodup hw1 hd1)
  intro pw hpw hnone e he hkey
  obtain ⟨⟨q, w⟩, hq, rfl⟩ := List.mem_map.mp he
  rw [entryFor_key] at hkey
  have hsq := diffFields_path_shape hd2 hq
  have hspw : pw.1 ≠ [] ∧ ∀ s ∈ pw.1, dotFree s = true := by
    obtain ⟨p₁, w₁⟩ := pw
    exact diffFields_path_shape hd1 hpw
  have : q = pw.1 := joinPath_inj _ _ hsq.1 hspw.1 hsq.2 hspw.2 hkey
  subst this
  have := diffFields_getProp a1 a2 hw2 hu2 pw.1 w hq
  rw [this] at hnone
  cases hnone

/-! ### Sorted lists with distinct keys are determined by their multiset -/

theorem perm_sorted_nodupkeys_eq :
    ∀ {l₁ l₂ : List DiffEntry}, l₁.Perm l₂ →
      l₁.Sorted localeLe → l₂.Sorted localeLe →
      (l₁.map DiffEntry.key).Nodup → l₁ = l₂ := by
  intro l₁
  induction l₁ with
  | nil =>
      intro l₂ hp _ _ _
      cases l₂ with
      | nil => rfl
      | cons b t₂ =>
          have := hp.length_eq
          simp at this
  | cons a t ih =>
      intro l₂ hp hs₁ hs₂ hnd
      cases l₂ with
      | nil =>
          have := hp.length_eq
          simp at this
      | cons b t₂ =>
          have hab : a = b := by
            have ha₂ : a ∈ b :: t₂ := hp.mem_iff.mp (List.mem_cons_self _ _)
            have hb₁ : b ∈ a :: t := hp.mem_iff.mpr (List.mem_cons_self _ _)
            rcases List.mem_cons.mp ha₂ with h | ha₂t
            · exact h
            rcases List.mem_cons.mp hb₁ with h | hb₁t
            · exact h.symm
            have h₁ : localeLe a b := (List.sorted_cons.mp hs₁).1 b hb₁t
            have h₂ : localeLe b a := (List.sorted_cons.mp hs₂).1 a ha₂t
            have hk : a.key = b.key := strLe_antisymm h₁ h₂
            exfalso
            have hdup : a.key ∈ t.map DiffEntry.key := by
              rw [hk]
              exact List.mem_map_of_mem _ hb₁t
            exact (List.nodup_cons.mp hnd).1 hdup
          subst hab
          have ht : t.Perm t₂ := hp.cons_inv
          rw [ih ht (List.sorted_cons.mp hs₁).2 (List.sorted_cons.mp hs₂).2
            (List.nodup_cons.mp hnd).2]

/-! ### Status filters of the pre-sort difference list -/

theorem filter_changed_decomp (a1 a2 : Rec) (hw1 : wfKeysFields a1 = true)
    (hw2 : wfKeysFields a2 = true) (hd1 : noDotFields a1 = true)
    (hd2 : noDotFields a2 = true) (hu2 : noUndefFields a2 = true) :
    (addRemovals a1 a2 ((diffObject a1 a2).map (fun pw => entryFor a1 a2 pw.1))
        (diffObject a2 a1)).filter (fun d => d.status == Status.changed)
      = ((diffObject a1 a2).filter (fun pw => (getProperty a1 pw.1).isSome)).map
          (fun pw => entryFor a1 a2 pw.1) := by
  rw [diffs_decomp a1 a2 hw1 hw2 hd1 hd2 hu2, List.filter_append]
  have h₂ : (((diffObject a2 a1).filter (fun pw => (getProperty a2 pw.1).isNone)).map
      (fun pw => removalEntry a1 pw.1)).filter (fun d => d.status == Status.changed) = [] := by
    rw [List.filter_eq_nil_iff]
    intro e he
    obtain ⟨pw, _, rfl⟩ := List.mem_map.mp he
    simp [removalEntry]
  rw [h₂, List.append_nil, List.filter_map]
  congr 1
  refine List.filter_congr ?_
  intro pw _
  exact entryFor_status_changed a1 a2 pw.1

theorem filter_added_decomp (a1 a2 : Rec) (hw1 : wfKeysFields a1 = true)
    (hw2 : wfKeysFields a2 = true) (hd1 : noDotFields a1 = true)
    (hd2 : noDotFields a2 = true) (hu2 : noUndefFields a2 = true) :
    (addRemovals a1 a2 ((diffObject a1 a2).map (fun pw => entryFor a1 a2 pw.1))
        (diffObject a2 a1)).filter (fun d => d.status == Status.added)
      = ((diffObject a1 a2).filter (fun pw => (getProperty a1 pw.1).isNone)).map
          (fun pw => entryFor a1 a2 pw.1) := by
  rw [diffs_decomp a1 a2 hw1 hw2 hd1 hd2 hu2, List.filter_append]
  have h₂ : (((diffObject a2 a1).filter (fun pw => (getProperty a2 pw.1).isNone)).map
      (fun pw => removalEntry a1 pw.1)).filter (fun d => d.status == Status.added) = [] := by
    rw [List.filter_eq_nil_iff]
    intro e he
    obtain ⟨pw, _, rfl⟩ := List.mem_map.mp he
    simp [removalEntry]
  rw [h₂, List.append_nil, List.filter_map]
  congr 1
  refine List.filter_congr ?_
  intro pw _
  exact entryFor_status_added a1 a2 pw.1

theorem filter_removed_decomp (a1 a2 : Rec) (hw1 : wfKeysFields a1 = true)
    (hw2 : wfKeysFields a2 = true) (hd1 : noDotFields a1 = true)
    (hd2 : noDotFields a2 = true) (hu2 : noUndefFields a2 = true) :
    (addRemovals a1 a2 ((diffObject a1 a2).map (fun pw => entryFor a1 a2 pw.1))
        (diffObject a2 a1)).filter (fun d => d.status == Status.removed)
      = ((diffObject a2 a1).filter (fun pw => (getProperty a2 pw.1).isNone)).map
          (fun pw => removalEntry a1 pw.1) := by
  rw [diffs_decomp a1 a2 hw1 hw2 hd1 hd2 hu2, List.filter_append]
  have h₁ : (((diffObject a1 a2).map (fun pw => entryFor a1 a2 pw.1)).filter
      (fun d => d.status == Status.removed)) = [] := by
    rw [List.filter_eq_nil_iff]
    intro e he
    obtain ⟨pw, _, rfl⟩ := List.mem_map.mp he
    simp [entryFor_status_removed]
  have h₂ : (((diffObject a2 a1).filter (fun pw => (getProperty a2 pw.1).isNone)).map
      (fun pw => removalEntry a1 pw.1)).filter (fun d => d.status == Status.removed)
      = ((diffObject a2 a1).filter (fun pw => (getProperty a2 pw.1).isNone)).map
          (fun pw => removalEntry a1 pw.1) := by
    rw [List.filter_eq_self]
    intro e he
    obtain ⟨pw, _, rfl⟩ := List.mem_map.mp he
    simp [removalEntry]
  rw [h₁, h₂, List.nil_append]

/-! ### The unsorted difference list and transfer across the final sort -/

/-- The difference list accumulated by the two passes, before the final
sort; `calculateDifferences` sorts exactly this list. -/
def preSortDiffs (a1 a2 : Rec) : List DiffEntry :=
  addRemovals a1 a2 ((diffObject a1 a2).map (fun pw => entryFor a1 a2 pw.1))
    (diffObject a2 a1)

theorem calculateDifferences_eq_sort (a1 a2 : Rec) :
    calculateDifferences (some a1) (some a2)
      = (preSortDiffs a1 a2).insertionSort localeLe := rfl

theorem preSortDiffs_perm (a1 a2 : Rec) :
    (calculateDifferences (some a1) (some a2)).Perm (preSortDiffs a1 a2) := by
  rw [calculateDifferences_eq_sort]
  exact List.perm_insertionSort localeLe _

theorem calc_sorted (a1 a2 : Rec) :
    (calculateDifferences (some a1) (some a2)).Sorted localeLe := by
  rw [calculateDifferences_eq_sort]
  exact List.sorted_insertionSort localeLe _

theorem calc_filter_sorted (a1 a2 : Rec) (p : DiffEntry → Bool) :
    ((calculateDifferences (some a1) (some a2)).filter p).Sorted localeLe :=
  List.Pairwise.sublist (List.filter_sublist _) (calc_sorted a1 a2)

theorem statusKeys_sorted (a1 a2 : Rec) (st : Status) :
    (statusKeys (calculateDifferences (some a1) (some a2)) st).Sorted
      (fun s t => strLe s t = true) :=
  List.pairwise_map.mpr (calc_filter_sorted a1 a2 _)

theorem statusKeys_perm (a1 a2 : Rec) (st : Status) :
    (statusKeys (calculateDifferences (some a1) (some a2)) st).Perm
      (statusKeys (preSortDiffs a1 a2) st) :=
  (((preSortDiffs_perm a1 a2).filter _).map _)

/-! ### The changed paths agree in the two directions -/

theorem changed_paths_perm (a1 a2 : Rec) (hw1 : wfKeysFields a1 = true)
    (hw2 : wfKeysFields a2 = true)
    (hu1 : noUndefFields a1 = true) (hu2 : noUndefFields a2 = true) :
    (((diffObject a1 a2).filter (fun pw => (getProperty a1 pw.1).isSome)).map Prod.fst).Perm
      (((diffObject a2 a1).filter (fun pw => (getProperty a2 pw.1).isSome)).map Prod.fst) := by
  have hn₁ : (((diffObject a1 a2).filter
      (fun pw => (getProperty a1 pw.1).isSome)).map Prod.fst).Nodup :=
    ((List.filter_sublist _).map Prod.fst).nodup (diffFields_fst_nodup a1 a2 hw2)
  have hn₂ : (((diffObject a2 a1).filter
      (fun pw => (getProperty a2 pw.1).isSome)).map Prod.fst).Nodup :=
    ((List.filter_sublist _).map Prod.fst).nodup (diffFields_fst_nodup a2 a1 hw1)
  have hsub₁ : (((diffObject a1 a2).filter
        (fun pw => (getProperty a1 pw.1).isSome)).map Prod.fst)
      ⊆ (((diffObject a2 a1).filter
        (fun pw => (getProperty a2 pw.1).isSome)).map Prod.fst) := by
    intro q hq
    obtain ⟨⟨p, w⟩, hpf, rfl⟩ := List.mem_map.mp hq
    obtain ⟨hmem, hcond⟩ := List.mem_filter.mp hpf
    obtain ⟨v1, hv1⟩ := Option.isSome_iff_exists.mp hcond
    have hsym := diffFields_symm hw1 hw2 hu1 hu2 p w v1 hmem hv1
    have hgp : getProperty a2 p = some w := diffFields_getProp a1 a2 hw2 hu2 p w hmem
    exact List.mem_map.mpr ⟨(p, v1),
      List.mem_filter.mpr ⟨hsym, by rw [hgp]; rfl⟩, rfl⟩
  have hsub₂ : (((diffObject a2 a1).filter
        (fun pw => (getProperty a2 pw.1).isSome)).map Prod.fst)
      ⊆ (((diffObject a1 a2).filter
        (fun pw => (getProperty a1 pw.1).isSome)).map Prod.fst) := by
    intro q hq
    obtain ⟨⟨p, w⟩, hpf, rfl⟩ := List.mem_map.mp hq
    obtain ⟨hmem, hcond⟩ := List.mem_filter.mp hpf
    obtain ⟨v2, hv2⟩ := Option.isSome_iff_exists.mp hcond
    have hsym := diffFields_symm hw2 hw1 hu2 hu1 p w v2 hmem hv2
    have hgp : getProperty a1 p = some w := diffFields_getProp a2 a1 hw1 hu1 p w hmem
    exact List.mem_map.mpr ⟨(p, v2),
      List.mem_filter.mpr ⟨hsym, by rw [hgp]; rfl⟩, rfl⟩
  exact (List.subperm_of_subset hn₁ hsub₁).antisymm
    (List.subperm_of_subset hn₂ hsub₂)

theorem changed_entries_swap (a1 a2 : Rec) (hw1 : wfKeysFields a1 = true)
    (hu1 : noUndefFields a1 = true) :
    ((diffObject a2 a1).filter (fun pw => (getProperty a2 pw.1).isSome)).map
        (fun pw => swapValues (entryFor a2 a1 pw.1))
      = ((diffObject a2 a1).filter (fun pw => (getProperty a2 pw.1).isSome)).map
          (fun pw => entryFor a1 a2 pw.1) := by
  refine List.map_congr_left ?_
  intro pw hpw
  obtain ⟨hmem, hcond⟩ := List.mem_filter.mp hpw
  obtain ⟨v2, hv2⟩ := Option.isSome_iff_exists.mp hcond
  obtain ⟨p, w⟩ := pw
  have hv1 : getProperty a1 p = some w := diffFields_getProp a2 a1 hw1 hu1 p w hmem
  exact swap_entryFor hv1 hv2

theorem statusKeys_presort_added (a1 a2 : Rec) (hw1 : wfKeysFields a1 = true)
    (hw2 : wfKeysFields a2 = true) (hd1 : noDotFields a1 = true)
    (hd2 : noDotFields a2 = true) (hu2 : noUndefFields a2 = true) :
    statusKeys (preSortDiffs a1 a2) Status.added
      = ((diffObject a1 a2).filter (fun pw => (getProperty a1 pw.1).isNone)).map
          (fun pw => joinPath pw.1) := by
  show ((preSortDiffs a1 a2).filter (fun d => d.status == Status.added)).map
      (fun d => d.key) = _
  rw [show (preSortDiffs a1 a2).filter (fun d => d.status == Status.added)
      = ((diffObject a1 a2).filter (fun pw => (getProperty a1 pw.1).isNone)).map
          (fun pw => entryFor a1 a2 pw.1)
    from filter_added_decomp a1 a2 hw1 hw2 hd1 hd2 hu2]
  rw [List.map_map]
  exact List.map_congr_left (fun pw _ => entryFor_key a1 a2 pw.1)

theorem statusKeys_presort_removed (a1 a2 : Rec) (hw1 : wfKeysFields a1 = true)
    (hw2 : wfKeysFields a2 = true) (hd1 : noDotFields a1 = true)
    (hd2 : noDotFields a2 = true) (hu2 : noUndefFields a2 = true) :
    statusKeys (preSortDiffs a1 a2) Status.removed
      = ((diffObject a2 a1).filter (fun pw => (getProperty a2 pw.1).isNone)).map
          (fun pw => joinPath pw.1) := by
  show ((preSortDiffs a1 a2).filter (fun d => d.status == Status.removed)).map
      (fun d => d.key) = _
  rw [show (preSortDiffs a1 a2).filter (fun d => d.status == Status.removed)
      = ((diffObject a2 a1).filter (fun pw => (getProperty a2 pw.1).isNone)).map
          (fun pw => removalEntry a1 pw.1)
    from filter_removed_decomp a1 a2 hw1 hw2 hd1 hd2 hu2]
  rw [List.map_map]
  exact List.map_congr_left (fun pw _ => removalEntry_key a1 pw.1)

/-! ### Appending an explicitly-undefined leaf is invisible to the diff -/

theorem lookAssoc_append (l₁ l₂ : Rec) (k : String) :
    lookAssoc (l₁ ++ l₂) k
      = match lookAssoc l₁ k with
        | some v => some v
        | none => lookAssoc l₂ k := by
  induction l₁ with
  | nil => rfl
  | cons kv rest ih =>
      obtain ⟨k₀, v⟩ := kv
      by_cases h : k₀ = k
      · subst h
        simp [lookAssoc]
      · simp [lookAssoc, h, ih]

theorem stripUndef_lookAssoc_append_undef (l : Rec) (k k₂ : String) :
    stripUndef (lookAssoc (l ++ [(k, Value.vUndef)]) k₂)
      = stripUndef (lookAssoc l k₂) := by
  rw [lookAssoc_append]
  cases h : lookAssoc l k₂ with
  | some v => rfl
  | none =>
      by_cases hk : k = k₂
      · simp [lookAssoc, hk, stripUndef]
      · simp [lookAssoc, hk, stripUndef]

theorem diffFields_left_append_undef (r l : Rec) (k : String) :
    diffFields (l ++ [(k, Value.vUndef)]) r = diffFields l r := by
  induction r with
  | nil => rfl
  | cons kv rest ih =>
      obtain ⟨k₀, v⟩ := kv
      rw [diffFields_cons, diffFields_cons, ih, stripUndef_lookAssoc_append_undef]

theorem diffFields_right_append (l r₁ r₂ : Rec) :
    diffFields l (r₁ ++ r₂) = diffFields l r₁ ++ diffFields l r₂ := by
  induction r₁ with
  | nil => rfl
  | cons kv rest ih =>
      obtain ⟨k, v⟩ := kv
      rw [List.cons_append, diffFields_cons, diffFields_cons, ih, List.append_assoc]

theorem diffFields_right_undef_nil {l : Rec} {k : String}
    (h : stripUndef (lookAssoc l k) = none) :
    diffFields l [(k, Value.vUndef)] = [] := by
  rw [diffFields_cons, h]
  rfl

theorem getProperty_append_undef (l : Rec) (k k₂ : String) (p : List String) :
    getProperty (l ++ [(k, Value.vUndef)]) (k₂ :: p) = getProperty l (k₂ :: p) := by
  cases h : lookAssoc l k₂ with
  | some v =>
      have h₂ : lookAssoc (l ++ [(k, Value.vUndef)]) k₂ = some v := by
        rw [lookAssoc_append, h]
      rw [getProperty_cons_some h₂, getProperty_cons_some h]
  | none =>
      rw [getProperty_cons_none h]
      by_cases hk : k = k₂
      · have h₂ : lookAssoc (l ++ [(k, Value.vUndef)]) k₂ = some Value.vUndef := by
          rw [lookAssoc_append, h]
          simp [lookAssoc, hk]
        rw [getProperty_cons_some h₂]
        cases p with
        | nil => rfl
        | cons s rest => rfl
      · have h₂ : lookAssoc (l ++ [(k, Value.vUndef)]) k₂ = none := by
          rw [lookAssoc_append, h]
          simp [lookAssoc, hk]
        rw [getProperty_cons_none h₂]

theorem entryFor_congr {d1 d2 d3 d4 : Rec} {p : List String}
    (h1 : getProperty d1 p = getProperty d3 p)
    (h2 : getProperty d2 p = getProperty d4 p) :
    entryFor d1 d2 p = entryFor d3 d4 p := by
  simp only [entryFor, h1, h2]

theorem addRemovals_congr {d1 d2 d3 d4 : Rec} :
    ∀ (L : List (List String × Value)) (acc : List DiffEntry),
      (∀ pw ∈ L, getProperty d1 pw.1 = getProperty d3 pw.1
          ∧ getProperty d2 pw.1 = getProperty d4 pw.1) →
      addRemovals d1 d2 acc L = addRemovals d3 d4 acc L := by
  intro L
  induction L with
  | nil => intro acc _; rfl
  | cons pv rest ih =>
      intro acc hcong
      obtain ⟨p, v⟩ := pv
      have hd1 := (hcong (p, v) (List.mem_cons_self _ _)).1
      have hd2 := (hcong (p, v) (List.mem_cons_self _ _)).2
      have htail := fun pw hpw => hcong pw (List.mem_cons_of_mem _ hpw)
      rw [addRemovals_cons, addRemovals_cons]
      by_cases hg : (acc.any fun d => d.key == joinPath p) = true
      · rw [if_pos hg, if_pos hg]
        exact ih acc htail
      · rw [if_neg hg, if_neg hg]
        cases hgp : getProperty d2 p with
        | none =>
            have hgp2 : getProperty d4 p = none := by rw [← hd2]; exact hgp
            rw [hgp2]
            change addRemovals d1 d2 (acc ++ [removalEntry d1 p]) rest
              = addRemovals d3 d4 (acc ++ [removalEntry d3 p]) rest
            have hrem : removalEntry d1 p = removalEntry d3 p := by
              simp [removalEntry, hd1]
            rw [← hrem]
            exact ih _ htail
        | some w =>
            have hgp2 : getProperty d4 p = some w := by rw [← hd2]; exact hgp
            rw [hgp2]
            change addRemovals d1 d2 acc rest = addRemovals d3 d4 acc rest
            exact ih acc htail

theorem mem_addRemovals_of_mem {d1 d2 : Rec} :
    ∀ (L : List (List String × Value)) (acc : List DiffEntry) {e : DiffEntry},
      e ∈ acc → e ∈ addRemovals d1 d2 acc L := by
  intro L
  induction L with
  | nil => intro acc e h; exact h
  | cons pv rest ih =>
      intro acc e h
      obtain ⟨p, v⟩ := pv
      rw [addRemovals_cons]
      by_cases hg : (acc.any fun d => d.key == joinPath p) = true
      · rw [if_pos hg]
        exact ih acc h
      · rw [if_neg hg]
        cases hgp : getProperty d2 p with
        | none => exact ih _ (List.mem_append_left _ h)
        | some w => exact ih acc h

theorem addRemovals_fresh {d1 d2 : Rec} :
    ∀ (L : List (List String × Value)) (acc : List DiffEntry) {e : DiffEntry},
      e ∈ addRemovals d1 d2 acc L →
      e ∈ acc ∨ e.key ∉ acc.map DiffEntry.key := by
  intro L
  induction L with
  | nil =>
      intro acc e h
      rw [addRemovals_nil] at h
      exact Or.inl h
  | cons pv rest ih =>
      intro acc e h
      obtain ⟨p, v⟩ := pv
      rw [addRemovals_cons] at h
      by_cases hg : (acc.any fun d => d.key == joinPath p) = true
      · rw [if_pos hg] at h
        exact ih acc h
      · rw [if_neg hg] at h
        cases hgp : getProperty d2 p with
        | none =>
            rw [hgp] at h
            rcases ih _ h with hmem | hnk
            · rcases List.mem_append.mp hmem with hmem | hmem
              · exact Or.inl hmem
              · right
                rw [List.mem_singleton.mp hmem]
                intro hk
                obtain ⟨e₂, he₂, hke₂⟩ := List.mem_map.mp hk
                rw [List.any_eq_true] at hg
                have hkey : e₂.key = joinPath p := hke₂
                exact hg ⟨e₂, he₂, beq_iff_eq.mpr hkey⟩
            · right
              intro hk
              refine hnk ?_
              rw [List.map_append]
              exact List.mem_append_left _ hk
        | some w =>
            rw [hgp] at h
            exact ih acc h

theorem firstPass_mem_calc {a1 a2 : Rec} {p : List String} {w : Value}
    (h : (p, w) ∈ diffObject a1 a2) :
    entryFor a1 a2 p ∈ calculateDifferences (some a1) (some a2) :=
  (preSortDiffs_perm a1 a2).mem_iff.mpr
    (mem_addRemovals_of_mem _ _ (List.mem_map.mpr ⟨(p, w), h, rfl⟩))

/-! ### The claims -/

/-- C1: on the spec's worked example, `compare({a:1,b:{c:2}}, {a:1,b:{c:3},d:4})`
returns exactly the two-entry DifferenceSet
`[{path:"b.c", changed, 2, 3}, {path:"d", added, 4}]`:
the nested change is reported at the leaf KeyPath `"b.c"`, not at the
top-level key `"b"`. -/
theorem claim1_example :
    calculateDifferences
      (some [("a", Value.vNum 1), ("b", Value.vObj [("c", Value.vNum 2)])])
      (some [("a", Value.vNum 1), ("b", Value.vObj [("c", Value.vNum 3)]), ("d", Value.vNum 4)])
    = [⟨"b.c", Status.changed, some (Value.vNum 2), some (Value.vNum 3)⟩,
       ⟨"d", Status.added, none, some (Value.vNum 4)⟩] := by
  decide

/-- C2 (counterexample): with a null first argument the source does not
fail; it returns the empty DifferenceSet (source lines 97-99 return `[]`),
contradicting the claim that comparison fails with an `InvalidInput`
error and returns no DifferenceSet. -/
theorem claim2_counterexample :
    calculateDifferences none (some [("x", Value.vNum 1)]) = [] := rfl

/-- C2 (amended): when either argument is null/absent,
`calculateDifferences` returns the empty DifferenceSet — no error is
signalled, and no partial DifferenceSet is ever produced. -/
theorem claim2_amended (a b : Option Rec) (h : a = none ∨ b = none) :
    calculateDifferences a b = [] := by
  rcases h with rfl | rfl
  · cases b <;> rfl
  · cases a <;> rfl

/-- C2 (witness): the amended statement applied at a concrete input. -/
theorem claim2_witness :
    calculateDifferences (some [("y", Value.vBool true)]) none = [] :=
  claim2_amended (some [("y", Value.vBool true)]) none (Or.inr rfl)

/-- C3 (counterexample): with `A = {a: undefined}` and `B = {a: 5}`,
`compare(A, B)` reports path `a` as added but `compare(B, A)` reports no
removal at all (it reports `a` as changed), so the added/removed sets of
the two directions differ. -/
theorem claim3_counterexample :
    statusKeys (calculateDifferences (some [("a", Value.vUndef)])
      (some [("a", Value.vNum 5)])) Status.added = ["a"]
    ∧ statusKeys (calculateDifferences (some [("a", Value.vNum 5)])
      (some [("a", Value.vUndef)])) Status.removed = [] := by
  constructor
  · decide
  · decide

/-- C3 (amended): for Records with distinct dot-free keys and no
explicitly-`undefined` leaves, the classification is symmetric: the added
paths of `compare(A, B)` are exactly the removed paths of
`compare(B, A)` and vice versa, and the changed entries coincide with
`oldValue`/`newValue` exchanged.  An `undefined` leaf opposite a present
value breaks this (see the counterexample), which is what restricts the
claim. -/
theorem claim3_symmetry (a1 a2 : Rec)
    (hw1 : wfKeysFields a1 = true) (hw2 : wfKeysFields a2 = true)
    (hd1 : noDotFields a1 = true) (hd2 : noDotFields a2 = true)
    (hu1 : noUndefFields a1 = true) (hu2 : noUndefFields a2 = true) :
    statusKeys (calculateDifferences (some a1) (some a2)) Status.added
      = statusKeys (calculateDifferences (some a2) (some a1)) Status.removed
    ∧ statusKeys (calculateDifferences (some a1) (some a2)) Status.removed
      = statusKeys (calculateDifferences (some a2) (some a1)) Status.added
    ∧ (calculateDifferences (some a1) (some a2)).filter
        (fun d => d.status == Status.changed)
      = ((calculateDifferences (some a2) (some a1)).filter
          (fun d => d.status == Status.changed)).map swapValues := by
  refine ⟨?_, ?_, ?_⟩
  · have e₁ := statusKeys_presort_added a1 a2 hw1 hw2 hd1 hd2 hu2
    have e₂ := statusKeys_presort_removed a2 a1 hw2 hw1 hd2 hd1 hu1
    have hp : (statusKeys (calculateDifferences (some a1) (some a2)) Status.added).Perm
        (statusKeys (calculateDifferences (some a2) (some a1)) Status.removed) := by
      refine (statusKeys_perm a1 a2 Status.added).trans ?_
      rw [e₁, ← e₂]
      exact (statusKeys_perm a2 a1 Status.removed).symm
    exact List.eq_of_perm_of_sorted hp (statusKeys_sorted a1 a2 _)
      (statusKeys_sorted a2 a1 _)
  · have e₁ := statusKeys_presort_removed a1 a2 hw1 hw2 hd1 hd2 hu2
    have e₂ := statusKeys_presort_added a2 a1 hw2 hw1 hd2 hd1 hu1
    have hp : (statusKeys (calculateDifferences (some a1) (some a2)) Status.removed).Perm
        (statusKeys (calculateDifferences (some a2) (some a1)) Status.added) := by
      refine (statusKeys_perm a1 a2 Status.removed).trans ?_
      rw [e₁, ← e₂]
      exact (statusKeys_perm a2 a1 Status.added).symm
    exact List.eq_of_perm_of_sorted hp (statusKeys_sorted a1 a2 _)
      (statusKeys_sorted a2 a1 _)
  · have hc₁ := filter_changed_decomp a1 a2 hw1 hw2 hd1 hd2 hu2
    have hc₂ := filter_changed_decomp a2 a1 hw2 hw1 hd2 hd1 hu1
    have hswap : ((preSortDiffs a2 a1).filter
          (fun d => d.status == Status.changed)).map swapValues
        = ((diffObject a2 a1).filter (fun pw => (getProperty a2 pw.1).isSome)).map
            (fun pw => entryFor a1 a2 pw.1) := by
      rw [show (preSortDiffs a2 a1).filter (fun d => d.status == Status.changed)
          = ((diffObject a2 a1).filter (fun pw => (getProperty a2 pw.1).isSome)).map
              (fun pw => entryFor a2 a1 pw.1) from hc₂]
      rw [List.map_map]
      exact changed_entries_swap a1 a2 hw1 hu1
    have hpiece : (((diffObject a1 a2).filter
          (fun pw => (getProperty a1 pw.1).isSome)).map
            (fun pw => entryFor a1 a2 pw.1)).Perm
        (((diffObject a2 a1).filter (fun pw => (getProperty a2 pw.1).isSome)).map
            (fun pw => entryFor a1 a2 pw.1)) := by
      have h₁ : ((diffObject a1 a2).filter
            (fun pw => (getProperty a1 pw.1).isSome)).map
              (fun pw => entryFor a1 a2 pw.1)
          = (((diffObject a1 a2).filter
              (fun pw => (getProperty a1 pw.1).isSome)).map Prod.fst).map
                (fun p => entryFor a1 a2 p) := by
        rw [List.map_map]
        rfl
      have h₂ : ((diffObject a2 a1).filter
            (fun pw => (getProperty a2 pw.1).isSome)).map
              (fun pw => entryFor a1 a2 pw.1)
          = (((diffObject a2 a1).filter
              (fun pw => (getProperty a2 pw.1).isSome)).map Prod.fst).map
                (fun p => entryFor a1 a2 p) := by
        rw [List.map_map]
        rfl
      rw [h₁, h₂]
      exact (changed_paths_perm a1 a2 hw1 hw2 hu1 hu2).map _
    have hchain : ((calculateDifferences (some a1) (some a2)).filter
          (fun d => d.status == Status.changed)).Perm
        (((calculateDifferences (some a2) (some a1)).filter
          (fun d => d.status == Status.changed)).map swapValues) := by
      refine ((preSortDiffs_perm a1 a2).filter _).trans ?_
      rw [show (preSortDiffs a1 a2).filter (fun d => d.status == Status.changed)
          = ((diffObject a1 a2).filter (fun pw => (getProperty a1 pw.1).isSome)).map
              (fun pw => entryFor a1 a2 pw.1) from hc₁]
      refine hpiece.trans ?_
      rw [← hswap]
      exact (((preSortDiffs_perm a2 a1).filter _).map swapValues).symm
    have hsorted₂ : (((calculateDifferences (some a2) (some a1)).filter
        (fun d => d.status == Status.changed)).map swapValues).Sorted localeLe :=
      List.pairwise_map.mpr (calc_filter_sorted a2 a1 _)
    have hnodup : (((calculateDifferences (some a1) (some a2)).filter
        (fun d => d.status == Status.changed)).map DiffEntry.key).Nodup :=
      ((List.filter_sublist _).map DiffEntry.key).nodup (calc_keys_nodup hw2 hd2)
    exact perm_sorted_nodupkeys_eq hchain (calc_filter_sorted a1 a2 _) hsorted₂ hnodup

/-- C3 (witness): the amended symmetry applied to the example Records of
the spec, whose keys are distinct and dot-free and whose leaves are never
`undefined`. -/
theorem claim3_witness :
    statusKeys (calculateDifferences
        (some [("a", Value.vNum 1), ("b", Value.vObj [("c", Value.vNum 2)])])
        (some [("a", Value.vNum 1), ("b", Value.vObj [("c", Value.vNum 3)]),
          ("d", Value.vNum 4)])) Status.added
      = statusKeys (calculateDifferences
        (some [("a", Value.vNum 1), ("b", Value.vObj [("c", Value.vNum 3)]),
          ("d", Value.vNum 4)])
        (some [("a", Value.vNum 1), ("b", Value.vObj [("c", Value.vNum 2)])]))
          Status.removed
    ∧ statusKeys (calculateDifferences
        (some [("a", Value.vNum 1), ("b", Value.vObj [("c", Value.vNum 2)])])
        (some [("a", Value.vNum 1), ("b", Value.vObj [("c", Value.vNum 3)]),
          ("d", Value.vNum 4)])) Status.removed
      = statusKeys (calculateDifferences
        (some [("a", Value.vNum 1), ("b", Value.vObj [("c", Value.vNum 3)]),
          ("d", Value.vNum 4)])
        (some [("a", Value.vNum 1), ("b", Value.vObj [("c", Value.vNum 2)])]))
          Status.added
    ∧ (calculateDifferences
        (some [("a", Value.vNum 1), ("b", Value.vObj [("c", Value.vNum 2)])])
        (some [("a", Value.vNum 1), ("b", Value.vObj [("c", Value.vNum 3)]),
          ("d", Value.vNum 4)])).filter (fun d => d.status == Status.changed)
      = ((calculateDifferences
        (some [("a", Value.vNum 1), ("b", Value.vObj [("c", Value.vNum 3)]),
          ("d", Value.vNum 4)])
        (some [("a", Value.vNum 1), ("b", Value.vObj [("c", Value.vNum 2)])])).filter
          (fun d => d.status == Status.changed)).map swapValues :=
  claim3_symmetry
    [("a", Value.vNum 1), ("b", Value.vObj [("c", Value.vNum 2)])]
    [("a", Value.vNum 1), ("b", Value.vObj [("c", Value.vNum 3)]), ("d", Value.vNum 4)]
    (by decide) (by decide) (by decide) (by decide) (by decide) (by decide)

/-- C4: comparing any well-formed Record with itself yields the empty
DifferenceSet. -/
theorem claim4_identity (r : Rec) (hw : wfKeysFields r = true) :
    calculateDifferences (some r) (some r) = [] :=
  calc_self_eq_nil hw

/-- C4 (witness): the identity applied at a concrete nested Record. -/
theorem claim4_witness :
    calculateDifferences
      (some [("a", Value.vNum 1), ("b", Value.vObj [("c", Value.vNum 2)])])
      (some [("a", Value.vNum 1), ("b", Value.vObj [("c", Value.vNum 2)])]) = [] :=
  claim4_identity [("a", Value.vNum 1), ("b", Value.vObj [("c", Value.vNum 2)])]
    (by decide)

/-- C5: for every pair of non-null input Records the path strings of the
returned DifferenceSet are non-decreasing in byte/lexicographic order
(the final sort of source line 164, with its comparator modelled as
byte/lexicographic order per spec section 4.1 step 4). -/
theorem claim5_sorted (a1 a2 : Rec) :
    ((calculateDifferences (some a1) (some a2)).map DiffEntry.key).Sorted
      (fun s t => strLe s t = true) :=
  List.pairwise_map.mpr (calc_sorted a1 a2)

/-- C6: for Records with distinct dot-free keys, the DifferenceSet
contains each path at most once — in particular a path captured as
changed or added never reappears as removed. -/
theorem claim6_no_duplicate_paths (a1 a2 : Rec)
    (hw : wfKeysFields a2 = true) (hd : noDotFields a2 = true) :
    ((calculateDifferences (some a1) (some a2)).map DiffEntry.key).Nodup :=
  calc_keys_nodup hw hd

/-- C6 (witness): no duplicate paths on the spec's worked example. -/
theorem claim6_witness :
    ((calculateDifferences
      (some [("a", Value.vNum 1), ("b", Value.vObj [("c", Value.vNum 2)])])
      (some [("a", Value.vNum 1), ("b", Value.vObj [("c", Value.vNum 3)]),
        ("d", Value.vNum 4)])).map DiffEntry.key).Nodup :=
  claim6_no_duplicate_paths
    [("a", Value.vNum 1), ("b", Value.vObj [("c", Value.vNum 2)])]
    [("a", Value.vNum 1), ("b", Value.vObj [("c", Value.vNum 3)]), ("d", Value.vNum 4)]
    (by decide) (by decide)

/-- C7 (counterexample): with right-hand leaf `{a: undefined}` the source
produces a `changed` entry whose `value2` is `undefined` (absent), so the
claimed invariant that a changed entry carries both values fails. -/
theorem claim7_counterexample :
    ¬ (∀ e ∈ calculateDifferences (some [("a", Value.vNum 5)])
        (some [("a", Value.vUndef)]),
        e.status = Status.changed → e.value1 ≠ none ∧ e.value2 ≠ none) := by
  decide

/-- C7 (amended): for Records with distinct keys and no
explicitly-`undefined` leaves, every entry satisfies the shape invariant:
changed entries carry both values, added entries only `value2`, removed
entries only `value1`. -/
theorem claim7_entry_invariant (a1 a2 : Rec)
    (hw1 : wfKeysFields a1 = true) (hw2 : wfKeysFields a2 = true)
    (hu1 : noUndefFields a1 = true) (hu2 : noUndefFields a2 = true) :
    ∀ e ∈ calculateDifferences (some a1) (some a2), entryWF e := by
  intro e he
  have hpre : e ∈ preSortDiffs a1 a2 := (preSortDiffs_perm a1 a2).mem_iff.mp he
  rcases addRemovals_mem _ _ hpre with hf | ⟨pw, hpw, rfl, hnone⟩
  · obtain ⟨⟨p, w⟩, hmem, rfl⟩ := List.mem_map.mp hf
    have hv2 : getProperty a2 p = some w := diffFields_getProp a1 a2 hw2 hu2 p w hmem
    cases hv1 : getProperty a1 p with
    | some v1 =>
        rw [entryFor_changed a2 hv1]
        refine ⟨fun _ => ⟨by simp, by simp [hv2]⟩, fun h => ?_, fun h => ?_⟩
        · cases h
        · cases h
    | none =>
        rw [entryFor_added a2 hv1]
        refine ⟨fun h => ?_, fun _ => ⟨rfl, by simp [hv2]⟩, fun h => ?_⟩
        · cases h
        · cases h
  · obtain ⟨p₁, w₁⟩ := pw
    have hv1 : getProperty a1 p₁ = some w₁ :=
      diffFields_getProp a2 a1 hw1 hu1 p₁ w₁ hpw
    refine ⟨fun h => ?_, fun h => ?_, fun _ => ⟨by simp [removalEntry, hv1], rfl⟩⟩
    · cases h
    · cases h

/-- C7 (witness): the amended invariant applied to a concrete entry of
the worked example output. -/
theorem claim7_witness :
    entryWF ⟨"b.c", Status.changed, some (Value.vNum 2), some (Value.vNum 3)⟩ :=
  claim7_entry_invariant
    [("a", Value.vNum 1), ("b", Value.vObj [("c", Value.vNum 2)])]
    [("a", Value.vNum 1), ("b", Value.vObj [("c", Value.vNum 3)]), ("d", Value.vNum 4)]
    (by decide) (by decide) (by decide) (by decide)
    ⟨"b.c", Status.changed, some (Value.vNum 2), some (Value.vNum 3)⟩
    (by decide)

/-- C8 (counterexample): an explicit `undefined` leaf opposite an absent
key is NOT reported — `compare({}, {a: undefined})` returns the empty
DifferenceSet, contradicting the claim's second half that such a leaf is
still reported. -/
theorem claim8_counterexample :
    calculateDifferences (some []) (some [("a", Value.vUndef)]) = [] := by
  decide

/-- C8 (amended): for EVERY pair of Records, `undefined` is equated with
absence throughout.  Part (i): any reported path whose left-hand value is
explicitly `undefined` contributes the addition entry to the output, and
(under dot-free right-hand keys, so that KeyPath strings are unambiguous)
every output entry at that key IS that addition — never a change.
Parts (ii) and (iii): a leaf explicitly holding `undefined` never differs
from a key that is absent (or itself `undefined`) on the other side:
appending such a leaf to either Record leaves the entire DifferenceSet
unchanged, so such a leaf is never reported.  Part (iv): an explicit
`null` leaf opposite an absent key does differ and is always reported as
an addition.  Part (v): a reported path whose left-hand value is `null`
always yields the change entry carrying `null` as its old value. -/
theorem claim8_amended (a1 a2 : Rec) :
    (∀ p w, (p, w) ∈ diffObject a1 a2 →
        getPropV (Value.vObj a1) p = some Value.vUndef →
        (⟨joinPath p, Status.added, none, getProperty a2 p⟩ : DiffEntry)
            ∈ calculateDifferences (some a1) (some a2)
          ∧ (noDotFields a2 = true →
              ∀ e ∈ calculateDifferences (some a1) (some a2), e.key = joinPath p →
                e = ⟨joinPath p, Status.added, none, getProperty a2 p⟩))
    ∧ (∀ k, stripUndef (lookAssoc a1 k) = none →
        calculateDifferences (some a1) (some (a2 ++ [(k, Value.vUndef)]))
          = calculateDifferences (some a1) (some a2))
    ∧ (∀ k, stripUndef (lookAssoc a2 k) = none →
        calculateDifferences (some (a1 ++ [(k, Value.vUndef)])) (some a2)
          = calculateDifferences (some a1) (some a2))
    ∧ (∀ k, lookAssoc a1 k = none → lookAssoc a2 k = some Value.vNull →
        (⟨k, Status.added, none, some Value.vNull⟩ : DiffEntry)
          ∈ calculateDifferences (some a1) (some a2))
    ∧ (∀ p w, (p, w) ∈ diffObject a1 a2 → getProperty a1 p = some Value.vNull →
        (⟨joinPath p, Status.changed, some Value.vNull, getProperty a2 p⟩ : DiffEntry)
          ∈ calculateDifferences (some a1) (some a2)) := by
  refine ⟨?_, ?_, ?_, ?_, ?_⟩
  · intro p w hmem hundef
    have hgp1 : getProperty a1 p = none := by
      show stripUndef (getPropV (Value.vObj a1) p) = none
      rw [hundef]
      rfl
    constructor
    · rw [← entryFor_added a2 hgp1]
      exact firstPass_mem_calc hmem
    · intro hd2 e he hkey
      have hpre : e ∈ preSortDiffs a1 a2 := (preSortDiffs_perm a1 a2).mem_iff.mp he
      have hshape := diffFields_path_shape hd2 hmem
      rcases addRemovals_fresh _ _ hpre with hf | hnk
      · obtain ⟨⟨q, w₂⟩, hq, rfl⟩ := List.mem_map.mp hf
        have hkq : (entryFor a1 a2 q).key = joinPath q := entryFor_key a1 a2 q
        have hqshape := diffFields_path_shape hd2 hq
        have hqp : q = p := joinPath_inj q p hqshape.1 hshape.1 hqshape.2 hshape.2
          (by rw [← hkq]; exact hkey)
        subst hqp
        exact entryFor_added a2 hgp1
      · exfalso
        apply hnk
        rw [hkey]
        exact List.mem_map.mpr ⟨entryFor a1 a2 p,
          List.mem_map.mpr ⟨(p, w), hmem, rfl⟩, entryFor_key a1 a2 p⟩
  · intro k hk
    have hD12 : diffObject a1 (a2 ++ [(k, Value.vUndef)]) = diffObject a1 a2 := by
      show diffFields a1 (a2 ++ [(k, Value.vUndef)]) = diffFields a1 a2
      rw [diffFields_right_append, diffFields_right_undef_nil hk, List.append_nil]
    have hD21 : diffObject (a2 ++ [(k, Value.vUndef)]) a1 = diffObject a2 a1 :=
      diffFields_left_append_undef a1 a2 k
    rw [calculateDifferences_some, calculateDifferences_some, hD12, hD21]
    have hfp : (diffObject a1 a2).map
          (fun pw => entryFor a1 (a2 ++ [(k, Value.vUndef)]) pw.1)
        = (diffObject a1 a2).map (fun pw => entryFor a1 a2 pw.1) := by
      refine List.map_congr_left ?_
      intro pw hpw
      obtain ⟨q, w⟩ := pw
      obtain ⟨k₂, q₂, v, hpq, _, _⟩ := mem_diffFields.mp hpw
      subst hpq
      exact entryFor_congr rfl (getProperty_append_undef a2 k k₂ q₂)
    rw [hfp]
    refine congrArg (fun l => List.insertionSort localeLe l) (addRemovals_congr _ _ ?_)
    intro pw hpw
    obtain ⟨q, w⟩ := pw
    obtain ⟨k₂, q₂, v, hpq, _, _⟩ := mem_diffFields.mp hpw
    subst hpq
    exact ⟨rfl, getProperty_append_undef a2 k k₂ q₂⟩
  · intro k hk
    have hD12 : diffObject (a1 ++ [(k, Value.vUndef)]) a2 = diffObject a1 a2 :=
      diffFields_left_append_undef a2 a1 k
    have hD21 : diffObject a2 (a1 ++ [(k, Value.vUndef)]) = diffObject a2 a1 := by
      show diffFields a2 (a1 ++ [(k, Value.vUndef)]) = diffFields a2 a1
      rw [diffFields_right_append, diffFields_right_undef_nil hk, List.append_nil]
    rw [calculateDifferences_some, calculateDifferences_some, hD12, hD21]
    have hfp : (diffObject a1 a2).map
          (fun pw => entryFor (a1 ++ [(k, Value.vUndef)]) a2 pw.1)
        = (diffObject a1 a2).map (fun pw => entryFor a1 a2 pw.1) := by
      refine List.map_congr_left ?_
      intro pw hpw
      obtain ⟨q, w⟩ := pw
      obtain ⟨k₂, q₂, v, hpq, _, _⟩ := mem_diffFields.mp hpw
      subst hpq
      exact entryFor_congr (getProperty_append_undef a1 k k₂ q₂) rfl
    rw [hfp]
    refine congrArg (fun l => List.insertionSort localeLe l) (addRemovals_congr _ _ ?_)
    intro pw hpw
    obtain ⟨q, w⟩ := pw
    obtain ⟨k₂, q₂, v, hpq, _, _⟩ := mem_diffFields.mp hpw
    subst hpq
    exact ⟨getProperty_append_undef a1 k k₂ q₂, rfl⟩
  · intro k h1 h2
    have hstrip : stripUndef (lookAssoc a1 k) = none := by
      rw [h1]
      rfl
    have hmem : ([k], Value.vNull) ∈ diffObject a1 a2 := by
      refine mem_diffFields.mpr ⟨k, [], Value.vNull, rfl, lookAssoc_mem h2, ?_⟩
      rw [hstrip, diffV_none_nonobj (fun fs h => Value.noConfusion h)]
      rw [if_neg (fun h => Option.noConfusion h)]
      exact List.mem_singleton.mpr rfl
    have hgp1 : getProperty a1 [k] = none := by
      rw [getProperty_single, hstrip]
    have hgp2 : getProperty a2 [k] = some Value.vNull := by
      rw [getProperty_single, h2]
      rfl
    have hentry : entryFor a1 a2 [k]
        = ⟨k, Status.added, none, some Value.vNull⟩ := by
      rw [entryFor_added a2 hgp1, hgp2]
      rfl
    rw [← hentry]
    exact firstPass_mem_calc hmem
  · intro p w hmem hnull
    rw [← entryFor_changed a2 hnull]
    exact firstPass_mem_calc hmem

/-- C8 (witness): the amended policy applied at concrete inputs: the
explicit-null leaf of `compare({}, {a: null})` is reported as an
addition, and appending an explicitly-`undefined` leaf `b` to the right
record of `compare({}, {a: 7})` leaves the DifferenceSet unchanged. -/
theorem claim8_witness :
    ((⟨"a", Status.added, none, some Value.vNull⟩ : DiffEntry)
      ∈ calculateDifferences (some []) (some [("a", Value.vNull)]))
    ∧ calculateDifferences (some [])
        (some ([("a", Value.vNum 7)] ++ [("b", Value.vUndef)]))
      = calculateDifferences (some []) (some [("a", Value.vNum 7)]) :=
  ⟨(claim8_amended [] [("a", Value.vNull)]).2.2.2.1 "a" rfl (by decide),
   (claim8_amended [] [("a", Value.vNum 7)]).2.1 "b" rfl⟩

/-- C10: with a null/absent argument, `calculateDifferences` returns the
empty array rather than signalling an error, so at the interface the
result of an invalid-input call is indistinguishable from comparing two
identical Records. -/
theorem claim10_invalid_input_empty (r : Rec) (hw : wfKeysFields r = true) :
    calculateDifferences none (some r) = []
    ∧ calculateDifferences (some r) none = []
    ∧ calculateDifferences none none = []
    ∧ calculateDifferences none (some r) = calculateDifferences (some r) (some r) := by
  refine ⟨rfl, rfl, rfl, ?_⟩
  rw [calc_self_eq_nil hw]
  rfl

/-- C10 (witness): the indistinguishability applied at a concrete Record. -/
theorem claim10_witness :
    calculateDifferences none (some [("hp", Value.vNum 10)]) = []
    ∧ calculateDifferences (some [("hp", Value.vNum 10)]) none = []
    ∧ calculateDifferences none none = []
    ∧ calculateDifferences none (some [("hp", Value.vNum 10)])
      = calculateDifferences (some [("hp", Value.vNum 10)])
          (some [("hp", Value.vNum 10)]) :=
  claim10_invalid_input_empty [("hp", Value.vNum 10)] (by decide)

end FoundryCompare
